import Mathlib

/-!
Verification of the ingestion and categorization pipeline of the
fee-automate repository (`fee_tracker.py`, `student_mappings.py`).

The Python source is shallowly embedded below.  Strings are processed as
`List Char` (Python strings are sequences of characters); monetary
amounts (Python floats holding currency values) are modelled as `ℚ`;
Python exceptions are modelled by `Option` results (`none` = the
operation raised); Python dicts are modelled as association lists in
insertion order, which is Python's iteration order.
-/

namespace FeeTracker

/-- ASCII/Python whitespace set used by `str.strip()` / `str.split()` /
regex `\s`. -/
def isWs (c : Char) : Bool :=
  c = ' ' || c = '\t' || c = '\n' || c = '\r' || c = '\x0b' || c = '\x0c'

/-- Python `str.strip()` on a character list. -/
def pyStrip (l : List Char) : List Char :=
  ((l.dropWhile isWs).reverse.dropWhile isWs).reverse

/-- Python `str.strip(chars)`: remove any of `cs` from both ends. -/
def pyStripChars (cs : List Char) (l : List Char) : List Char :=
  ((l.dropWhile (cs.contains ·)).reverse.dropWhile (cs.contains ·)).reverse

/-- Python `str.lower()` (ASCII model). -/
def pyLower (l : List Char) : List Char := l.map Char.toLower

/-- Python `str.replace(" ", "")`: delete every space character. -/
def removeSpaces (l : List Char) : List Char := l.filter (· ≠ ' ')

/-- Python `str.title()` (ASCII model): a letter is upper-cased when the
preceding character is not a letter, lower-cased otherwise. -/
def pyTitle : List Char → Bool → List Char
  | [], _ => []
  | c :: rest, prevAlpha =>
    (if c.isAlpha then (if prevAlpha then c.toLower else c.toUpper) else c) ::
      pyTitle rest c.isAlpha

/-- Helper for `pySplit`: accumulate the current word. -/
def pySplitAux : List Char → List Char → List (List Char)
  | [], [] => []
  | [], acc => [acc.reverse]
  | c :: rest, acc =>
    if isWs c then
      (if acc = [] then pySplitAux rest [] else acc.reverse :: pySplitAux rest [])
    else pySplitAux rest (c :: acc)

/-- Python `str.split()` (no argument): whitespace-separated words,
empty pieces dropped. -/
def pySplit (l : List Char) : List (List Char) := pySplitAux l []

/-- Python `" ".join(l)`. -/
def joinSpace : List (List Char) → List Char
  | [] => []
  | [w] => w
  | w :: rest => w ++ ' ' :: joinSpace rest

/-- `" ".join(s.split())`: collapse whitespace runs, trim the ends. -/
def normalizeName (l : List Char) : List Char := joinSpace (pySplit l)

/-- Python `sub in s` (substring containment). -/
def containsSub (sub l : List Char) : Bool :=
  (List.range (l.length + 1)).any (fun i => sub.isPrefixOf (l.drop i))

/-- Scanner for `collapseWs`; the flag records whether the previous
character was whitespace (i.e. a run is already open). -/
def collapseWsAux : List Char → Bool → List Char
  | [], _ => []
  | c :: rest, inRun =>
    if isWs c then
      (if inRun then collapseWsAux rest true else ' ' :: collapseWsAux rest true)
    else c :: collapseWsAux rest false

/-- `re.sub(r'\s+', ' ', s)`: replace each whitespace run by one space. -/
def collapseWs (l : List Char) : List Char := collapseWsAux l false

/-! ## Line tokenizer (`FeeTrackerApp.parse_csv_line`) -/

/-- After a closing quote the parser does `i += 1; if line[i] == ',': i += 1`:
consume one following comma when present. -/
def consumeComma (l : List Char) : List Char :=
  if l.head? = some ',' then l.tail else l

theorem consumeComma_length_le (l : List Char) :
    (consumeComma l).length ≤ l.length := by
  rw [consumeComma]
  split
  · cases l <;> simp
  · simp

/-- The inner `while` loop of the `="..."` legacy-escape branch: copy
characters until a `"` immediately followed by end of line, `,`, `\n` or
`\r`; then skip the quote and one following comma.  Returns the field and
the unconsumed remainder of the line. -/
def legacyScan : List Char → List Char → List Char × List Char
  | [], field => (field, [])
  | c :: rest, field =>
    if c = '"' ∧ (rest = [] ∨ rest.head? = some ',' ∨ rest.head? = some '\n' ∨
        rest.head? = some '\r') then
      (field, consumeComma rest)
    else legacyScan rest (field ++ [c])

theorem legacyScan_rest_length_le (l field : List Char) :
    (legacyScan l field).2.length ≤ l.length := by
  induction l generalizing field with
  | nil => simp [legacyScan]
  | cons c rest ih =>
    rw [legacyScan]
    split
    · exact le_trans (consumeComma_length_le rest) (Nat.le_succ _)
    · exact le_trans (ih _) (Nat.le_succ _)

/-- The main scanning loop of `parse_csv_line`, one branch per `if`/`elif`
of the Python loop, with the trailing flush `if current or in_quotes`. -/
def tokenLoop : List Char → List Char → Bool → List (List Char) → List (List Char)
  | [], current, inQuotes, parts =>
    if current ≠ [] ∨ inQuotes then parts ++ [current] else parts
  | c :: rest, current, inQuotes, parts =>
    if c = '=' ∧ rest.head? = some '"' then
      let p := legacyScan rest.tail []
      tokenLoop p.2 current inQuotes (parts ++ [p.1])
    else if c = '"' ∧ inQuotes = false then
      tokenLoop rest current true parts
    else if c = '"' ∧ inQuotes = true then
      tokenLoop (consumeComma rest) [] false (parts ++ [current])
    else if c = ',' then
      (if inQuotes then tokenLoop rest (current ++ [c]) inQuotes parts
       else tokenLoop rest [] inQuotes (parts ++ [current]))
    else tokenLoop rest (current ++ [c]) inQuotes parts
  termination_by l => l.length
  decreasing_by
    · have h := legacyScan_rest_length_le rest.tail []
      have : rest.tail.length ≤ rest.length := by
        cases rest <;> simp
      simp only [List.length_cons]
      omega
    · simp
    · have := consumeComma_length_le rest
      simp only [List.length_cons]
      omega
    · simp
    · simp
    · simp

/-- Fuel-indexed form of `tokenLoop` with the identical branch
structure; the fuel (chosen `≥` the line length) only bounds the
recursion so that concrete lines can be evaluated by the kernel. -/
def tokenLoopF : ℕ → List Char → List Char → Bool → List (List Char) → List (List Char)
  | _, [], current, inQuotes, parts =>
    if current ≠ [] ∨ inQuotes then parts ++ [current] else parts
  | 0, _ :: _, current, inQuotes, parts =>
    if current ≠ [] ∨ inQuotes then parts ++ [current] else parts
  | fuel + 1, c :: rest, current, inQuotes, parts =>
    if c = '=' ∧ rest.head? = some '"' then
      let p := legacyScan rest.tail []
      tokenLoopF fuel p.2 current inQuotes (parts ++ [p.1])
    else if c = '"' ∧ inQuotes = false then
      tokenLoopF fuel rest current true parts
    else if c = '"' ∧ inQuotes = true then
      tokenLoopF fuel (consumeComma rest) [] false (parts ++ [current])
    else if c = ',' then
      (if inQuotes then tokenLoopF fuel rest (current ++ [c]) inQuotes parts
       else tokenLoopF fuel rest [] inQuotes (parts ++ [current]))
    else tokenLoopF fuel rest (current ++ [c]) inQuotes parts

theorem tokenLoopF_eq_tokenLoop :
    ∀ (fuel : ℕ) (l current : List Char) (inQuotes : Bool) (parts : List (List Char)),
      l.length ≤ fuel →
      tokenLoopF fuel l current inQuotes parts = tokenLoop l current inQuotes parts := by
  intro fuel
  induction fuel with
  | zero =>
    intro l current inQuotes parts h
    have : l = [] := List.length_eq_zero.mp (Nat.le_zero.mp h)
    subst this
    rw [tokenLoopF, tokenLoop]
  | succ n ih =>
    intro l current inQuotes parts h
    cases l with
    | nil => rw [tokenLoopF, tokenLoop]
    | cons c rest =>
      rw [tokenLoopF, tokenLoop]
      have hrest : rest.length ≤ n := by
        simp only [List.length_cons] at h; omega
      split
      · exact ih _ _ _ _ (le_trans (legacyScan_rest_length_le rest.tail [])
          (le_trans (by cases rest <;> simp) hrest))
      · split
        · exact ih _ _ _ _ hrest
        · split
          · exact ih _ _ _ _ (le_trans (consumeComma_length_le rest) hrest)
          · split
            · split
              · exact ih _ _ _ _ hrest
              · exact ih _ _ _ _ hrest
            · exact ih _ _ _ _ hrest

/-- `FeeTrackerApp.parse_csv_line` on a character list. -/
def tokenizeChars (line : List Char) : List (List Char) :=
  tokenLoopF line.length line [] false []

theorem tokenizeChars_eq (line : List Char) :
    tokenizeChars line = tokenLoop line [] false [] :=
  tokenLoopF_eq_tokenLoop _ _ _ _ _ le_rfl

/-- `FeeTrackerApp.parse_csv_line`. -/
def parse_csv_line (line : String) : List String :=
  (tokenizeChars line.data).map String.mk

/-! ## Amount parsing (`float(credit)` on bank-statement credit strings) -/

/-- Digit string to value; `none` if empty or a non-digit appears. -/
def digitsVal (l : List Char) : Option ℕ :=
  if l = [] ∨ l.any (fun c => ¬ c.isDigit) then none
  else some (l.foldl (fun acc c => 10 * acc + (c.toNat - 48)) 0)

/-- Models Python `float()` restricted to plain decimal notation
(optional sign, digits, optional fractional part), the format of the
statement's credit column; other inputs are a `ValueError` (`none`). -/
def parseDecimal (l : List Char) : Option ℚ :=
  let unsigned : List Char → Option ℚ := fun u =>
    match u.splitOn '.' with
    | [intPart] => (digitsVal intPart).map (fun n => (n : ℚ))
    | [intPart, fracPart] =>
      if intPart = [] ∧ fracPart = [] then none
      else if intPart.any (fun c => ¬ c.isDigit) ∨
          fracPart.any (fun c => ¬ c.isDigit) then none
      else
        some (mkRat
          ((intPart.foldl (fun acc c => 10 * acc + (c.toNat - 48)) 0 : ℕ) *
              10 ^ fracPart.length +
            (fracPart.foldl (fun acc c => 10 * acc + (c.toNat - 48)) 0 : ℕ))
          (10 ^ fracPart.length))
    | _ => none
  match l with
  | '-' :: rest => (unsigned rest).map Neg.neg
  | '+' :: rest => unsigned rest
  | _ => unsigned l

/-! ## Category engine (`get_category_key`, `categorize_transaction`) -/

/-- A category definition: `{'name': ..., 'fee': float-or-None}`. -/
structure Category where
  name : String
  fee : Option ℚ
deriving DecidableEq, Repr

/-- Round half to even, the rounding of Python's `f"{fee:.0f}"`: compare
twice the fractional part `q - ⌊q⌋` (as the integer `2*(num - ⌊q⌋*den)`)
against the denominator, rounding ties to the even neighbour. -/
def roundHalfEven (q : ℚ) : ℤ :=
  let fl := q.floor
  let twiceFract := 2 * (q.num - fl * (q.den : ℤ))
  if twiceFract < (q.den : ℤ) then fl
  else if (q.den : ℤ) < twiceFract then fl + 1
  else if fl % 2 = 0 then fl else fl + 1

/-- `FeeTrackerApp.get_category_key`: `f"{name} (₹{fee:.0f})"` when the
fee is present, else just the name. -/
def get_category_key (name : String) (fee : Option ℚ) : String :=
  match fee with
  | some f => name ++ " (₹" ++ toString (roundHalfEven f) ++ ")"
  | none => name

/-- First loop of `categorize_transaction`: first category whose fee is
not `None` and equals the amount. -/
def findFeeMatch (amount : ℚ) : List Category → Option Category
  | [] => none
  | c :: rest =>
    match c.fee with
    | some f => if amount = f then some c else findFeeMatch amount rest
    | none => findFeeMatch amount rest

/-- Second loop of `categorize_transaction`: first category with
`fee = None` (the variable-amount catch-all). -/
def findVariable : List Category → Option Category
  | [] => none
  | c :: rest => match c.fee with
    | none => some c
    | some _ => findVariable rest

/-- `FeeTrackerApp.categorize_transaction`. -/
def categorize_transaction (amount : ℚ) (categories : List Category) : String :=
  match findFeeMatch amount categories with
  | some c => get_category_key c.name c.fee
  | none =>
    match findVariable categories with
    | some c => get_category_key c.name c.fee
    | none => "Uncategorized"

/-- The §4.4 contract for `classify`, written with `List.find?` exactly as
the spec phrases it: first fixed-fee definition equal to the amount, else
first absent-fee definition, else the sentinel. -/
def classifySpec (amount : ℚ) (categories : List Category) : String :=
  match categories.find? (fun c => c.fee = some amount) with
  | some c => get_category_key c.name c.fee
  | none =>
    match categories.find? (fun c => c.fee = none) with
    | some c => get_category_key c.name c.fee
    | none => "Uncategorized"

/-! ## Name resolver (`student_mappings.get_full_name`) -/

/-- Strategy-2 loop: first mapping whose key matches case-insensitively. -/
def lookupCI (n : List Char) : List (List Char × String) → Option String
  | [] => none
  | (k, v) :: rest => if pyLower k = pyLower n then some v else lookupCI n rest

/-- Strategy-3 loop: first mapping whose key matches after removing all
spaces from both sides. -/
def lookupNoSpace (n : List Char) : List (List Char × String) → Option String
  | [] => none
  | (k, v) :: rest =>
    if removeSpaces k = removeSpaces n then some v else lookupNoSpace n rest

/-- Strategy-4 loop: space-removed, case-insensitive match. -/
def lookupNoSpaceCI (n : List Char) : List (List Char × String) → Option String
  | [] => none
  | (k, v) :: rest =>
    if pyLower (removeSpaces k) = pyLower (removeSpaces n) then some v
    else lookupNoSpaceCI n rest

/-- Strategy-1 dict lookup: `short_name in STUDENT_NAME_MAPPINGS`. -/
def lookupExact (n : List Char) : List (List Char × String) → Option String
  | [] => none
  | (k, v) :: rest => if k = n then some v else lookupExact n rest

/-- `student_mappings.get_full_name`: normalize whitespace, then the four
matching strategies in order, else `short_name.title()`. -/
def get_full_name (mappings : List (List Char × String)) (shortName : List Char) :
    String :=
  let n := normalizeName shortName
  match lookupExact n mappings with
  | some v => v
  | none =>
    match lookupCI n mappings with
    | some v => v
    | none =>
      match lookupNoSpace n mappings with
      | some v => v
      | none =>
        match lookupNoSpaceCI n mappings with
        | some v => v
        | none => String.mk (pyTitle n false)

/-! ## Transaction extraction (`extract_name`, `process_csv`) -/

/-- `FeeTrackerApp.extract_name`: 4th `/`-separated segment of the UPI
description, whitespace-collapsed; `"Unknown"` when absent. -/
def extract_name (description : List Char) : List Char :=
  let parts := description.splitOn '/'
  if 4 ≤ parts.length then collapseWs (pyStrip (parts.getD 3 []))
  else "Unknown".data

/-- A parsed transaction record. -/
structure Txn where
  date : String
  name : String
  short_name : String
  amount : ℚ
  category : String
  description : String
  reference : String
deriving DecidableEq, Repr

/-- The `.strip().strip('="').strip('"')` cleanup applied to each used
field of a tokenized row. -/
def cleanField (l : List Char) : List Char :=
  pyStripChars ['"'] (pyStripChars ['=', '"'] (pyStrip l))

/-- The per-line body of `process_csv`'s ingest loop: skip blank and
comma-led lines, tokenize, require 8 fields, extract and parse the
fields, discard non-credit rows and unparsable amounts (`none` = the
line produces no transaction). -/
def processLine (mappings : List (List Char × String)) (categories : List Category)
    (line : List Char) : Option Txn :=
  if pyStrip line = [] ∨ (pyStrip line).head? = some ',' then none
  else
    let parts := tokenizeChars line
    if 8 ≤ parts.length then
      let txnDate := cleanField (parts.getD 0 [])
      let description := cleanField (parts.getD 3 [])
      let credit := (cleanField (parts.getD 6 [])).filter (· ≠ ',')
      if credit = [] then none
      else
        match parseDecimal credit with
        | none => none
        | some amount =>
          let shortName := extract_name description
          let fullName := get_full_name mappings shortName
          let category := categorize_transaction amount categories
          some
            { date := String.mk txnDate
              name := fullName
              short_name := String.mk shortName
              amount := amount
              category := category
              description := String.mk description
              reference := String.mk (cleanField (parts.getD 2 [])) }
    else none

/-- Header search of `process_csv`: index after the first line containing
both `'Txn Date'` and `'Credit'`; 0 when no such line exists. -/
def headerStart (lines : List (List Char)) : ℕ :=
  match lines.findIdx? (fun l =>
      containsSub "Txn Date".data l && containsSub "Credit".data l) with
  | some i => i + 1
  | none => 0

/-- The fresh-parse path of `FeeTrackerApp.process_csv`: per-category
index initialized empty, transactions appended in order, each inserted
into its category's sublist; an insertion under a key absent from the
index is an uncaught `KeyError` (`none`). -/
def process_csv (lines : List (List Char)) (mappings : List (List Char × String))
    (categories : List Category) :
    Option (List Txn × List (String × List Txn)) :=
  let catData0 : List (String × List Txn) :=
    categories.foldl (fun d c =>
      let k := get_category_key c.name c.fee
      if d.any (fun p => p.1 = k) then d.map (fun p => if p.1 = k then (k, []) else p)
      else d ++ [(k, [])]) []
  let step : Option (List Txn × List (String × List Txn)) → List Char →
      Option (List Txn × List (String × List Txn)) := fun st line =>
    match st with
    | none => none
    | some (txns, catData) =>
      match processLine mappings categories line with
      | none => some (txns, catData)
      | some t =>
        if catData.any (fun p => p.1 = t.category) then
          some (txns ++ [t],
            catData.map (fun p => if p.1 = t.category then (p.1, p.2 ++ [t]) else p))
        else none
  (lines.drop (headerStart lines)).foldl step (some ([], catData0))

/-! ## Ledger state and mutation operations

Python stores transaction dicts by reference: the flat list
`self.transactions` and the per-category sublists of
`self.categorized_data` hold handles to the same mutable objects, and
`list.remove` / `in` compare by value.  The embedding uses an arena:
`arena` is the store of transaction objects, identified by their arena
index, and the flat list and the index sublists hold identifiers.
In-place mutation of an object is `arena.set`. -/

/-- The placeholder value dereferencing an out-of-range identifier. -/
def dfltTxn : Txn := ⟨"", "", "", 0, "", "", ""⟩

/-- Object at identifier `i`. -/
def nthTxn : List Txn → ℕ → Txn
  | [], _ => dfltTxn
  | t :: _, 0 => t
  | _ :: rest, n + 1 => nthTxn rest n

/-- The app's mutable state: `categories`, `transactions`,
`categorized_data`. -/
structure LState where
  cats : List Category
  arena : List Txn
  flat : List ℕ
  catData : List (String × List ℕ)
deriving DecidableEq, Repr

/-- Dict lookup `categorized_data[k]` (first entry; dict keys are
unique). `none` is a `KeyError`. -/
def lookupCat (cd : List (String × List ℕ)) (k : String) : Option (List ℕ) :=
  match cd with
  | [] => none
  | (k', l) :: rest => if k' = k then some l else lookupCat rest k

/-- Dict assignment `categorized_data[k] = l` on an existing key. -/
def setCat (cd : List (String × List ℕ)) (k : String) (l : List ℕ) :
    List (String × List ℕ) :=
  match cd with
  | [] => []
  | (k', l') :: rest =>
    if k' = k then (k', l) :: rest else (k', l') :: setCat rest k l

/-- `list.remove(x)`: drop the first element whose dereferenced value
equals `v`; `none` is the `ValueError` raised when no element matches. -/
def eraseFirstVal (arena : List Txn) (ids : List ℕ) (v : Txn) : Option (List ℕ) :=
  match ids with
  | [] => none
  | j :: rest =>
    if nthTxn arena j = v then some rest
    else (eraseFirstVal arena rest v).map (j :: ·)

/-- `x in lst` by value. -/
def memVal (arena : List Txn) (ids : List ℕ) (v : Txn) : Bool :=
  ids.any (fun j => nthTxn arena j = v)

/-- All identifiers stored in the category index, in iteration order. -/
def idsOf (cd : List (String × List ℕ)) : List ℕ := (cd.map (·.2)).flatten

/-- The dialog's field overwrite: every field of the object is updated,
the category always (`transaction['category'] = new_category`). -/
def editSet (s : LState) (i : ℕ) (nm dt : String) (amt : ℚ) (cat : String) : Txn :=
  { nthTxn s.arena i with name := nm, date := dt, amount := amt, category := cat }

/-- `FeeTrackerApp.edit_transaction` after the dialog is accepted:
mutate the object's fields in place (visible through every handle), and
when the category changed, remove the object from the old sublist and
append it to the new one.  `none` models the uncaught
`ValueError`/`KeyError` of `remove`/dict indexing. -/
def edit_transaction (s : LState) (i : ℕ) (nm dt : String) (amt : ℚ)
    (newCat : String) : Option LState :=
  if (nthTxn s.arena i).category = newCat then
    some { s with arena := s.arena.set i (editSet s i nm dt amt newCat) }
  else
    match lookupCat s.catData (nthTxn s.arena i).category with
    | none => none
    | some l =>
      match eraseFirstVal (s.arena.set i (editSet s i nm dt amt newCat)) l
          (editSet s i nm dt amt newCat) with
      | none => none
      | some l' =>
        match lookupCat (setCat s.catData (nthTxn s.arena i).category l') newCat with
        | none => none
        | some l2 =>
          some { s with
            arena := s.arena.set i (editSet s i nm dt amt newCat),
            catData := setCat (setCat s.catData (nthTxn s.arena i).category l')
              newCat (l2 ++ [i]) }

/-- `FeeTrackerApp.delete_transaction` after the confirmation: remove
from the flat list, then from the category sublist; both removals raise
(`none`) when the value is absent. -/
def delete_transaction (s : LState) (i : ℕ) : Option LState :=
  let v := nthTxn s.arena i
  match eraseFirstVal s.arena s.flat v with
  | none => none
  | some flat' =>
    match lookupCat s.catData v.category with
    | none => none
    | some l =>
      match eraseFirstVal s.arena l v with
      | none => none
      | some l' => some { s with flat := flat', catData := setCat s.catData v.category l' }

/-- The per-transaction body of `delete_selected_transactions`: remove
from the sublist and the flat list, each guarded by an `in` check that
silently skips a missing value; dict indexing of an absent category key
is still a `KeyError` (`none`). -/
def deleteSelOne (s : LState) (i : ℕ) : Option LState :=
  match lookupCat s.catData (nthTxn s.arena i).category with
  | none => none
  | some l =>
    some { s with
      flat :=
        if memVal s.arena s.flat (nthTxn s.arena i) then
          (eraseFirstVal s.arena s.flat (nthTxn s.arena i)).getD s.flat
        else s.flat
      catData := setCat s.catData (nthTxn s.arena i).category
        (if memVal s.arena l (nthTxn s.arena i) then
          (eraseFirstVal s.arena l (nthTxn s.arena i)).getD l
        else l) }

/-- `FeeTrackerApp.delete_selected_transactions` after the confirmation:
the guarded removal applied to each selected transaction. -/
def delete_selected_transactions (s : LState) (targets : List ℕ) : Option LState :=
  targets.foldl (fun st i => st.bind (fun s' => deleteSelOne s' i)) (some s)

/-- `FeeTrackerApp.get_transaction_id`: the selection identity
`f"{date}_{name}_{amount}_{reference}"`, carried as the tuple of the
four formatted fields.  Value-identical transaction objects always
share this id. -/
def get_transaction_id (t : Txn) : String × String × ℚ × String :=
  (t.date, t.name, t.amount, t.reference)

/-- `FeeTrackerApp.get_selected_transactions`: walk the flat list and
keep every transaction whose id is in the selected-id set, so a
selection is always closed under id equality (clones are co-selected). -/
def get_selected_transactions (s : LState)
    (sel : List (String × String × ℚ × String)) : List ℕ :=
  s.flat.filter (fun j => sel.any (fun i => i = get_transaction_id (nthTxn s.arena j)))

/-- The duplicated object: a copy of the source with `'_COPY'` appended
to the reference and the dialog-edited name/date/amount/category. -/
def dupTxn (s : LState) (i : ℕ) (nm dt : String) (amt : ℚ) (cat : String) : Txn :=
  { date := dt, name := nm, short_name := (nthTxn s.arena i).short_name,
    amount := amt, category := cat,
    description := (nthTxn s.arena i).description,
    reference := (nthTxn s.arena i).reference ++ "_COPY" }

/-- One accepted iteration of `duplicate_selected_transactions`: the
fresh object is appended to the flat list always, and to the category
sublist only when the key exists. -/
def duplicateOne (s : LState) (i : ℕ) (nm dt : String) (amt : ℚ) (cat : String) :
    LState :=
  { s with
    arena := s.arena ++ [dupTxn s i nm dt amt cat]
    flat := s.flat ++ [s.arena.length]
    catData :=
      match lookupCat s.catData cat with
      | some l => setCat s.catData cat (l ++ [s.arena.length])
      | none => s.catData }

/-- The in-place category overwrite
`transaction['category'] = new_category` of the re-categorization
loop. -/
def recatSet (cats : List Category) (arena : List Txn) (i : ℕ) : List Txn :=
  arena.set i { nthTxn arena i with
    category := categorize_transaction (nthTxn arena i).amount cats }

/-- The loop of `FeeTrackerApp.recategorize_transactions`:
re-categorize each transaction by its stored amount, overwrite its
category field and append it to the new sublist.  A key absent from the
index is a `KeyError`: the loop stops there with the state mutated so
far (the exception propagates; the flag records success). -/
def recatLoop (cats : List Category) :
    List Txn → List (String × List ℕ) → List ℕ →
      List Txn × List (String × List ℕ) × Bool
  | arena, cd, [] => (arena, cd, true)
  | arena, cd, i :: rest =>
    match lookupCat cd (categorize_transaction (nthTxn arena i).amount cats) with
    | none => (recatSet cats arena i, cd, false)
    | some l =>
      recatLoop cats (recatSet cats arena i)
        (setCat cd (categorize_transaction (nthTxn arena i).amount cats) (l ++ [i]))
        rest

/-- `FeeTrackerApp.recategorize_transactions` (no-op on an empty
transaction list, as in the source). -/
def recategorize_transactions (s : LState) : LState × Bool :=
  if s.flat = [] then (s, true)
  else
    let cd0 := s.catData.map (fun p => (p.1, ([] : List ℕ)))
    let r := recatLoop s.cats s.arena cd0 s.flat
    ({ s with arena := r.1, catData := r.2.1 }, r.2.2)

/-! ## Category management (`CategoryManagerDialog.add_category` /
`update_category`) -/

/-- `str.strip()` at `String` level. -/
def pyStripStr (s : String) : String := String.mk (pyStrip s.data)

/-- `str.lower()` at `String` level. -/
def pyLowerStr (s : String) : String := String.mk (pyLower s.data)

/-- Duplicate-name check of `add_category`. -/
def dupName (cats : List Category) (nm : String) : Bool :=
  cats.any (fun c => pyLowerStr c.name = pyLowerStr nm)

/-- Existing variable-amount category check (`fee is None or fee == 0`). -/
def hasVariable (cats : List Category) : Bool :=
  cats.any (fun c => c.fee = none ∨ c.fee = some 0)

/-- Duplicate fixed-fee check of `add_category`. -/
def dupFee (cats : List Category) (fee : ℚ) : Bool :=
  cats.any (fun c => c.fee = some fee)

/-- `CategoryManagerDialog.add_category`: validate, then append
`{'name': name, 'fee': fee if fee > 0 else None}`; every rejection path
returns before mutating. -/
def add_category (cats : List Category) (nameText : String) (fee : ℚ) :
    List Category :=
  let nm := pyStripStr nameText
  if nm = "" then cats
  else if dupName cats nm then cats
  else if fee = 0 ∧ hasVariable cats then cats
  else if 0 < fee ∧ dupFee cats fee then cats
  else cats ++ [⟨nm, if 0 < fee then some fee else none⟩]

/-- `CategoryManagerDialog.update_category`: locate the first category
matching the selected item's old name and fee (object identity is its
position), run the three duplicate checks excluding that position, then
overwrite it in place; every rejection path returns before mutating. -/
def update_category (cats : List Category) (selName : String) (selFee : Option ℚ)
    (nameText : String) (fee : ℚ) : List Category :=
  let nm := pyStripStr nameText
  if nm = "" then cats
  else
    match cats.findIdx? (fun c => c.name = selName ∧ c.fee = selFee) with
    | none => cats
    | some idx =>
      if cats.enum.any (fun p => p.1 ≠ idx ∧ pyLowerStr p.2.name = pyLowerStr nm) then
        cats
      else if fee = 0 ∧ cats.enum.any (fun p =>
          p.1 ≠ idx ∧ (p.2.fee = none ∨ p.2.fee = some 0)) then cats
      else if 0 < fee ∧ cats.enum.any (fun p => p.1 ≠ idx ∧ p.2.fee = some fee) then
        cats
      else cats.set idx ⟨nm, if 0 < fee then some fee else none⟩

/-! ## Specification-side definitions and claim-support data -/

/-- The §4.3 contract for the name resolver, written with `List.find?`
exactly as the spec phrases it: whitespace-normalize, then exact,
case-insensitive, space-removed and space-removed-case-insensitive
matching in order, else title case. -/
def resolveSpec (mappings : List (List Char × String)) (shortName : List Char) :
    String :=
  let n := normalizeName shortName
  match mappings.find? (fun p => p.1 = n) with
  | some p => p.2
  | none =>
    match mappings.find? (fun p => pyLower p.1 = pyLower n) with
    | some p => p.2
    | none =>
      match mappings.find? (fun p => removeSpaces p.1 = removeSpaces n) with
      | some p => p.2
      | none =>
        match mappings.find? (fun p =>
            pyLower (removeSpaces p.1) = pyLower (removeSpaces n)) with
        | some p => p.2
        | none => String.mk (pyTitle n false)

/-- Which of the two quoting conventions wraps a field. -/
inductive Wrap where
  | legacy : Wrap
  | plain : Wrap
deriving DecidableEq, Repr

/-- Wrap one field: `="f"` or `"f"`. -/
def wrapField : Wrap → List Char → List Char
  | .legacy, f => '=' :: '"' :: (f ++ ['"'])
  | .plain, f => '"' :: (f ++ ['"'])

/-- Join wrapped fields with commas. -/
def buildLine : List (Wrap × List Char) → List Char
  | [] => []
  | [(w, f)] => wrapField w f
  | (w, f) :: rest => wrapField w f ++ ',' :: buildLine rest

/-- A legacy-escaped field body scans verbatim iff it contains no `"`
immediately followed by `,`, `\n` or `\r`. -/
def legacyOkB : List Char → Bool
  | [] => true
  | c :: rest =>
    (!(c = '"' && (rest.head? = some ',' || rest.head? = some '\n' ||
        rest.head? = some '\r'))) && legacyOkB rest

/-- Wrapping-compatibility of a field: a plain-quoted field must contain
no `"` and must not end in `=` (its last character would pair with the
closing quote into a `="` legacy-escape trigger); a legacy-escaped field
must satisfy `legacyOkB`. -/
def wrapOk : Wrap → List Char → Bool
  | .plain, f => f.all (fun c => c ≠ '"') && !(f.getLast? = some '=')
  | .legacy, f => legacyOkB f

/-- The keys of the category index, in insertion order. -/
def keyList (cd : List (String × List ℕ)) : List String := cd.map (·.1)

/-- Number of identifiers in `l` whose object equals `t`. -/
def countV (arena : List Txn) (t : Txn) (l : List ℕ) : ℕ :=
  l.countP (fun j => nthTxn arena j = t)

/-- `j`'s object differs from every object a remaining deletion target
points at. -/
def noVal (arena : List Txn) (R : List ℕ) (j : ℕ) : Bool :=
  !(R.any (fun r => nthTxn arena j = nthTxn arena r))

/-- A user operation on the ledger: an accepted edit dialog, a confirmed
bulk delete of the transactions whose ids are in the selected-id set, or
an accepted duplication dialog. -/
inductive Op where
  | editT (i : ℕ) (nm dt : String) (amt : ℚ) (cat : String) : Op
  | delSel (sel : List (String × String × ℚ × String)) : Op
  | dup (i : ℕ) (nm dt : String) (amt : ℚ) (cat : String) : Op
deriving DecidableEq, Repr

/-- Apply one operation. -/
def applyOp (s : LState) : Op → Option LState
  | .editT i nm dt amt cat => edit_transaction s i nm dt amt cat
  | .delSel sel => delete_selected_transactions s (get_selected_transactions s sel)
  | .dup i nm dt amt cat => some (duplicateOne s i nm dt amt cat)

/-- Apply a sequence of operations; `none` as soon as one raises. -/
def applySeq : LState → List Op → Option LState
  | s, [] => some s
  | s, op :: rest => (applyOp s op).bind (fun s' => applySeq s' rest)

/-- Ledger consistency: flat ids are in range, dict keys are unique, no
id is stored twice, the flat list and the index hold the same ids up to
order, and every id sits under the key equal to its category field. -/
def LedgerInv (s : LState) : Prop :=
  (∀ i ∈ s.flat, i < s.arena.length) ∧
  (keyList s.catData).Nodup ∧
  s.flat.Nodup ∧
  (idsOf s.catData).Nodup ∧
  s.flat.Perm (idsOf s.catData) ∧
  (∀ p ∈ s.catData, ∀ i ∈ p.2, (nthTxn s.arena i).category = p.1)

/-- Does sublist `p` contain the transaction value `v`? -/
def inSub (s : LState) (v : Txn) (p : String × List ℕ) : Bool :=
  p.2.any (fun j => nthTxn s.arena j = v)

/-- The observable index invariant of §3, as claimed: every transaction
of the flat list is contained in exactly one category sublist, that
sublist's key equals the transaction's category field, and conversely
every transaction of a sublist is in the flat list. -/
def IndexConsistent (s : LState) : Prop :=
  (∀ i ∈ s.flat, ∃ p ∈ s.catData,
    inSub s (nthTxn s.arena i) p = true ∧
    p.1 = (nthTxn s.arena i).category ∧
    ∀ q ∈ s.catData, inSub s (nthTxn s.arena i) q = true → q = p) ∧
  (∀ p ∈ s.catData, ∀ j ∈ p.2, memVal s.arena s.flat (nthTxn s.arena j) = true)

/-- Safety condition the UI establishes for an operation: a duplicate's
category comes from the edit dialog's non-editable combo box, whose
items are the index's key list (edits and bulk deletes need no
condition: the delete targets are produced by the id-based selection
itself). -/
def OpSafe (s : LState) : Op → Prop
  | .editT _ _ _ _ _ => True
  | .dup _ _ _ _ cat => cat ∈ keyList s.catData
  | .delSel _ => True

/-- Every operation of the sequence is safe in the state it runs in. -/
def SafeSeq : LState → List Op → Prop
  | _, [] => True
  | s, op :: rest =>
    OpSafe s op ∧
      (match applyOp s op with
       | some s' => SafeSeq s' rest
       | none => True)

instance (s : LState) : Decidable (LedgerInv s) := by
  unfold LedgerInv; infer_instance

instance (s : LState) : Decidable (IndexConsistent s) := by
  unfold IndexConsistent; infer_instance

instance (s : LState) : (op : Op) → Decidable (OpSafe s op)
  | .editT .. => .isTrue trivial
  | .dup _ _ _ _ cat => (inferInstance : Decidable (cat ∈ keyList s.catData))
  | .delSel _ => .isTrue trivial

instance decSafeSeq : (s : LState) → (ops : List Op) → Decidable (SafeSeq s ops)
  | _, [] => .isTrue trivial
  | s, op :: rest =>
    match hop : applyOp s op with
    | some s' =>
      have _d2 := decSafeSeq s' rest
      decidable_of_iff (OpSafe s op ∧ SafeSeq s' rest) (by rw [SafeSeq, hop])
    | none => decidable_of_iff (OpSafe s op ∧ True) (by rw [SafeSeq, hop])

/-- A small consistent ledger for exercising the invariant theorem. -/
def c5WitState : LState :=
  ⟨[], [⟨"D", "N", "S", 10, "A", "", "R"⟩], [0], [("A", [0]), ("B", [])]⟩

/-- Duplicate the ingested transaction twice with identical dialog
values (producing two value-identical copies sharing one transaction
id), edit the original into `"B"` as well, then bulk-delete with the
copies' shared id selected: the id-based selection picks up both
copies, and the loop removes the whole clone pair. -/
def c5WitOps : List Op :=
  [.dup 0 "M" "D2" 7 "B", .dup 0 "M" "D2" 7 "B", .editT 0 "N2" "D2" 11 "B",
   .delSel [("D2", "M", 7, "R_COPY")]]

/-- The ledger reached from `c5WitState` by `c5WitOps` (the arena keeps
the two unreferenced copy objects). -/
def c5WitFinal : LState :=
  ⟨[], [⟨"D2", "N2", "S", 11, "B", "", "R"⟩, ⟨"D2", "M", "S", 7, "B", "", "R_COPY"⟩,
    ⟨"D2", "M", "S", 7, "B", "", "R_COPY"⟩], [0], [("A", []), ("B", [0])]⟩

/-- A ledger whose only transaction (amount 77) matches no fixed fee
while no variable-amount category exists: re-categorization classifies
it as `"Uncategorized"`, a key absent from the index. -/
def c6State : LState :=
  ⟨[⟨"Tuition", some 500⟩], [⟨"d", "n", "s", 77, "K", "", "r"⟩], [0],
   [("Tuition (₹500)", [])]⟩

/-- A ledger with a catch-all category, on which re-categorization
succeeds. -/
def c6WitState : LState :=
  ⟨[⟨"Tuition", some 500⟩, ⟨"Donations", none⟩],
   [⟨"d", "n", "s", 77, "K", "", "r"⟩, ⟨"d2", "n2", "s2", 500, "X", "", "r2"⟩],
   [0, 1], [("Tuition (₹500)", [1]), ("Donations", [0])]⟩

/-- A ledger whose arena holds a transaction object that is in neither
the flat list nor any sublist (its category key exists but is empty). -/
def c9State : LState :=
  ⟨[], [⟨"05-01-2024", "John Doe", "JD", 500, "K", "", "R"⟩], [], [("K", [])]⟩

/-! ## Theorems -/

theorem findFeeMatch_eq_find? (amount : ℚ) :
    ∀ cats : List Category,
      findFeeMatch amount cats = cats.find? (fun c => c.fee = some amount)
  | [] => rfl
  | c :: rest => by
    rw [findFeeMatch, List.find?]
    cases hf : c.fee with
    | none => simp [hf, findFeeMatch_eq_find? amount rest]
    | some f =>
      by_cases ha : amount = f
      · simp [hf, ha]
      · simp [hf, ha, Ne.symm ha, findFeeMatch_eq_find? amount rest]

theorem findVariable_eq_find? :
    ∀ cats : List Category, findVariable cats = cats.find? (fun c => c.fee = none)
  | [] => rfl
  | c :: rest => by
    rw [findVariable, List.find?]
    cases hf : c.fee with
    | none => simp [hf]
    | some f => simp [hf, findVariable_eq_find? rest]

theorem get_category_key_ne_sentinel (nm : String) (f : ℚ) :
    get_category_key nm (some f) ≠ "Uncategorized" := by
  intro h
  have hd := congrArg String.data h
  simp only [get_category_key, String.data_append] at hd
  have h1 : '₹' ∈ nm.data ++ [' ', '(', '₹'] ++
      (toString (roundHalfEven f)).data ++ [')'] := by simp
  rw [hd] at h1
  exact absurd h1 (by decide)

/-- **C2** — `categorize_transaction` realizes the §4.4 `classify`
contract: the key of the first fixed-fee definition equal to the amount,
else the key of the first absent-fee definition; keys are
`"{name} (₹{fee:.0f})"` for fixed fees and the bare name otherwise; on
`[{Tuition,500},{Donations,none}]` the amounts 500 and 77 classify to
`"Tuition (₹500)"` and `"Donations"`; and with no absent-fee definition
and no matching fee, the result is the sentinel `"Uncategorized"`, which
is not a key derived from the category set. -/
theorem categorize_transaction_spec :
    (∀ (amount : ℚ) (cats : List Category),
      categorize_transaction amount cats = classifySpec amount cats) ∧
    (∀ (nm : String) (f : ℚ),
      get_category_key nm (some f) =
        nm ++ " (₹" ++ toString (roundHalfEven f) ++ ")" ∧
      get_category_key nm none = nm) ∧
    categorize_transaction 500 [⟨"Tuition", some 500⟩, ⟨"Donations", none⟩] =
      "Tuition (₹500)" ∧
    categorize_transaction 77 [⟨"Tuition", some 500⟩, ⟨"Donations", none⟩] =
      "Donations" ∧
    (∀ (amount : ℚ) (cats : List Category),
      (∀ c ∈ cats, c.fee ≠ none) → (∀ c ∈ cats, c.fee ≠ some amount) →
      categorize_transaction amount cats = "Uncategorized" ∧
        "Uncategorized" ∉ cats.map (fun c => get_category_key c.name c.fee)) := by
  refine ⟨fun amount cats => ?_, fun nm f => ⟨rfl, rfl⟩, by decide, by decide,
    fun amount cats h1 h2 => ⟨?_, ?_⟩⟩
  · rw [categorize_transaction, classifySpec, findFeeMatch_eq_find?,
      findVariable_eq_find?]
  · rw [categorize_transaction]
    rw [findFeeMatch_eq_find?, List.find?_eq_none.2 (fun c hc => by
      simpa using h2 c hc)]
    rw [findVariable_eq_find?, List.find?_eq_none.2 (fun c hc => by
      simpa using h1 c hc)]
  · intro hmem
    obtain ⟨c, hc, hkey⟩ := List.mem_map.1 hmem
    cases hf : c.fee with
    | none => exact h1 c hc hf
    | some f =>
      rw [hf] at hkey
      exact get_category_key_ne_sentinel c.name f hkey

/-- **C2 witness**: the sentinel case at amount 77 against a single
fixed-fee category. -/
theorem categorize_transaction_spec_witness :
    categorize_transaction 77 [⟨"Tuition", some 500⟩] = "Uncategorized" ∧
    "Uncategorized" ∉
      [Category.mk "Tuition" (some 500)].map (fun c => get_category_key c.name c.fee) :=
  categorize_transaction_spec.2.2.2.2 77 [⟨"Tuition", some 500⟩]
    (by decide) (by decide)

/-- **C1** — ingesting a header line followed by the statement row
`="05-01-2024",="REF1",="REF1","UPI/CR/123/JOHN DOE/HDFC/note",,,="500.00",`
with mapping `{"JOHN DOE": "John Doe"}` and categories
`[{Tuition, 500}]` yields exactly one transaction with date
`05-01-2024`, display name `John Doe`, amount `500`, and category key
`Tuition (₹500)`, inserted under that key in the index. -/
theorem process_csv_end_to_end :
    process_csv
      ["Txn Date,Value Date,Ref,Description,Debit,,Credit,Balance\n".data,
       "=\"05-01-2024\",=\"REF1\",=\"REF1\",\"UPI/CR/123/JOHN DOE/HDFC/note\",,,=\"500.00\",\n".data]
      [("JOHN DOE".data, "John Doe")] [⟨"Tuition", some 500⟩] =
    some ([⟨"05-01-2024", "John Doe", "JOHN DOE", 500, "Tuition (₹500)",
            "UPI/CR/123/JOHN DOE/HDFC/note", "REF1"⟩],
          [("Tuition (₹500)",
            [⟨"05-01-2024", "John Doe", "JOHN DOE", 500, "Tuition (₹500)",
              "UPI/CR/123/JOHN DOE/HDFC/note", "REF1"⟩])]) := by decide

theorem lookupExact_eq_find? (n : List Char) :
    ∀ m : List (List Char × String),
      lookupExact n m = (m.find? (fun p => p.1 = n)).map Prod.snd
  | [] => rfl
  | (k, v) :: rest => by
    rw [lookupExact, List.find?]
    by_cases hk : k = n
    · simp [hk]
    · simp [hk, lookupExact_eq_find? n rest]

theorem lookupCI_eq_find? (n : List Char) :
    ∀ m : List (List Char × String),
      lookupCI n m = (m.find? (fun p => pyLower p.1 = pyLower n)).map Prod.snd
  | [] => rfl
  | (k, v) :: rest => by
    rw [lookupCI, List.find?]
    by_cases hk : pyLower k = pyLower n
    · simp [hk]
    · simp [hk, lookupCI_eq_find? n rest]

theorem lookupNoSpace_eq_find? (n : List Char) :
    ∀ m : List (List Char × String),
      lookupNoSpace n m =
        (m.find? (fun p => removeSpaces p.1 = removeSpaces n)).map Prod.snd
  | [] => rfl
  | (k, v) :: rest => by
    rw [lookupNoSpace, List.find?]
    by_cases hk : removeSpaces k = removeSpaces n
    · simp [hk]
    · simp [hk, lookupNoSpace_eq_find? n rest]

theorem lookupNoSpaceCI_eq_find? (n : List Char) :
    ∀ m : List (List Char × String),
      lookupNoSpaceCI n m =
        (m.find? (fun p =>
          pyLower (removeSpaces p.1) = pyLower (removeSpaces n))).map Prod.snd
  | [] => rfl
  | (k, v) :: rest => by
    rw [lookupNoSpaceCI, List.find?]
    by_cases hk : pyLower (removeSpaces k) = pyLower (removeSpaces n)
    · simp [hk]
    · simp [hk, lookupNoSpaceCI_eq_find? n rest]

/-- **C7** — `get_full_name` realizes the §4.3 ordered-fallback
contract (`resolveSpec`), and on mapping `{"AB CD": "Alice Brown"}`
resolves `"ab cd"` (case-insensitive branch) and `"ABCD"`
(space-removed branch) to `"Alice Brown"`, `"xy"` to the title-case
fallback `"Xy"`; internal whitespace runs are normalized before
matching. -/
theorem get_full_name_spec :
    (∀ (m : List (List Char × String)) (tok : List Char),
      get_full_name m tok = resolveSpec m tok) ∧
    get_full_name [("AB CD".data, "Alice Brown")] "ab cd".data = "Alice Brown" ∧
    get_full_name [("AB CD".data, "Alice Brown")] "ABCD".data = "Alice Brown" ∧
    get_full_name [("AB CD".data, "Alice Brown")] "xy".data = "Xy" ∧
    get_full_name [("A B".data, "Ann Bee")] "A  \t B".data = "Ann Bee" := by
  refine ⟨fun m tok => ?_, by decide, by decide, by decide, by decide⟩
  rw [get_full_name, resolveSpec, lookupExact_eq_find?, lookupCI_eq_find?,
    lookupNoSpace_eq_find?, lookupNoSpaceCI_eq_find?]
  cases m.find? (fun p => p.1 = normalizeName tok) with
  | some p => rfl
  | none =>
    cases m.find? (fun p => pyLower p.1 = pyLower (normalizeName tok)) with
    | some p => rfl
    | none =>
      cases m.find? (fun p =>
          removeSpaces p.1 = removeSpaces (normalizeName tok)) with
      | some p => rfl
      | none =>
        cases m.find? (fun p =>
            pyLower (removeSpaces p.1) = pyLower (removeSpaces (normalizeName tok))) with
        | some p => rfl
        | none => rfl

theorem eraseFirstVal_eq_none (arena : List Txn) (v : Txn) (ids : List ℕ) :
    eraseFirstVal arena ids v = none ↔ memVal arena ids v = false := by
  induction ids with
  | nil => simp [eraseFirstVal, memVal]
  | cons j rest ih =>
    rw [eraseFirstVal, memVal, List.any_cons]
    rw [memVal] at ih
    by_cases hj : nthTxn arena j = v
    · simp [hj]
    · simp [hj, ih]

/-- **C9 (amended)** — the single-transaction delete signals the
not-found condition distinctly: if the transaction's value is absent
from the flat list, or absent from the sublist of its own category,
`delete_transaction` raises (`none`) rather than silently no-op. -/
theorem delete_transaction_signals (s : LState) (i : ℕ)
    (h : memVal s.arena s.flat (nthTxn s.arena i) = false ∨
      ∀ l, lookupCat s.catData (nthTxn s.arena i).category = some l →
        memVal s.arena l (nthTxn s.arena i) = false) :
    delete_transaction s i = none := by
  rw [delete_transaction]
  rcases h with h | h
  · rw [(eraseFirstVal_eq_none s.arena (nthTxn s.arena i) s.flat).2 h]
  · cases he : eraseFirstVal s.arena s.flat (nthTxn s.arena i) with
    | none => rfl
    | some flat' =>
      cases hl : lookupCat s.catData (nthTxn s.arena i).category with
      | none => rfl
      | some l =>
        simp only [(eraseFirstVal_eq_none s.arena (nthTxn s.arena i) l).2 (h l hl)]

/-- **C9 witness**: deleting the detached transaction of `c9State`
raises. -/
theorem delete_transaction_signals_witness :
    delete_transaction c9State 0 = none :=
  delete_transaction_signals c9State 0 (Or.inl (by decide))

/-- **C9 counterexample** — the bulk delete does *not* signal: applied
to a transaction value absent from both the flat list and its category
sublist, `delete_selected_transactions` succeeds and leaves the state
exactly unchanged. -/
theorem delete_selected_silently_noops :
    memVal c9State.arena c9State.flat (nthTxn c9State.arena 0) = false ∧
    delete_selected_transactions c9State [0] = some c9State := by decide

/-- **C10** — the trailing field buffer is flushed at end of line only
when it is non-empty or an ordinary-quote state is still open: a final
separator comma emits the pending field and nothing after it, an empty
pending buffer without open quote is dropped, an open quote state is
flushed even when empty, and `"a,"` tokenizes to `["a"]`. -/
theorem trailing_flush_spec :
    (∀ (current : List Char) (parts : List (List Char)),
      tokenLoop [','] current false parts = parts ++ [current]) ∧
    (∀ parts : List (List Char), tokenLoop [] [] false parts = parts) ∧
    (∀ (current : List Char) (parts : List (List Char)),
      tokenLoop [] current true parts = parts ++ [current]) ∧
    parse_csv_line "a," = ["a"] := by
  exact ⟨fun current parts => by simp [tokenLoop],
    fun parts => by simp [tokenLoop],
    fun current parts => by simp [tokenLoop], by decide⟩

/-- **C8** — category add/update requests that duplicate an existing
name (case-insensitively), duplicate an existing positive fixed fee, or
would introduce a second variable-amount category are rejected with the
list left exactly unchanged; and any request that does mutate the list
violates none of the three conditions (for an update, "existing" means
a category other than the one being edited, which the source excludes
by object identity). -/
theorem category_validation_spec :
    (∀ (cats : List Category) (nameText : String) (fee : ℚ),
      (dupName cats (pyStripStr nameText) = true ∨
        (fee = 0 ∧ hasVariable cats = true) ∨
        (0 < fee ∧ dupFee cats fee = true)) →
      add_category cats nameText fee = cats) ∧
    (∀ (cats : List Category) (nameText : String) (fee : ℚ),
      add_category cats nameText fee ≠ cats →
      dupName cats (pyStripStr nameText) = false ∧
      ¬(fee = 0 ∧ hasVariable cats = true) ∧
      ¬(0 < fee ∧ dupFee cats fee = true)) ∧
    (∀ (cats : List Category) (selName : String) (selFee : Option ℚ)
        (nameText : String) (fee : ℚ) (idx : ℕ),
      cats.findIdx? (fun c => c.name = selName ∧ c.fee = selFee) = some idx →
      (cats.enum.any (fun p =>
          p.1 ≠ idx ∧ pyLowerStr p.2.name = pyLowerStr (pyStripStr nameText)) = true ∨
        (fee = 0 ∧ cats.enum.any (fun p =>
          p.1 ≠ idx ∧ (p.2.fee = none ∨ p.2.fee = some 0)) = true) ∨
        (0 < fee ∧ cats.enum.any (fun p => p.1 ≠ idx ∧ p.2.fee = some fee) = true)) →
      update_category cats selName selFee nameText fee = cats) ∧
    (∀ (cats : List Category) (selName : String) (selFee : Option ℚ)
        (nameText : String) (fee : ℚ),
      update_category cats selName selFee nameText fee ≠ cats →
      ∀ idx, cats.findIdx? (fun c => c.name = selName ∧ c.fee = selFee) = some idx →
        cats.enum.any (fun p =>
          p.1 ≠ idx ∧ pyLowerStr p.2.name = pyLowerStr (pyStripStr nameText)) = false ∧
        ¬(fee = 0 ∧ cats.enum.any (fun p =>
          p.1 ≠ idx ∧ (p.2.fee = none ∨ p.2.fee = some 0)) = true) ∧
        ¬(0 < fee ∧ cats.enum.any (fun p => p.1 ≠ idx ∧ p.2.fee = some fee) = true)) := by
  refine ⟨?_, ?_, ?_, ?_⟩
  · intro cats nameText fee h
    rw [add_category]
    split_ifs with h0 h1 h2 h3 h4 <;> try rfl
    all_goals
      rcases h with h | ⟨hf, h⟩ | ⟨hf, h⟩
      · exact absurd h h1
      · exact absurd ⟨hf, h⟩ h2
      · exact absurd ⟨hf, h⟩ h3
  · intro cats nameText fee h
    rw [add_category] at h
    split_ifs at h with h0 h1 h2 h3 h4
    all_goals first
      | exact absurd rfl h
      | exact ⟨by simpa using h1, h2, h3⟩
  · intro cats selName selFee nameText fee idx hidx h
    rw [update_category]
    by_cases h0 : pyStripStr nameText = ""
    · rw [if_pos h0]
    · rw [if_neg h0]
      simp only [hidx]
      split_ifs with h1 h2 h3 h4 <;> try rfl
      all_goals
        rcases h with h | ⟨hf, h⟩ | ⟨hf, h⟩
        · exact absurd h h1
        · exact absurd ⟨hf, h⟩ h2
        · exact absurd ⟨hf, h⟩ h3
  · intro cats selName selFee nameText fee h idx hidx
    rw [update_category] at h
    by_cases h0 : pyStripStr nameText = ""
    · rw [if_pos h0] at h
      exact absurd rfl h
    · rw [if_neg h0] at h
      simp only [hidx] at h
      split_ifs at h with h1 h2 h3 h4
      all_goals first
        | exact absurd rfl h
        | exact ⟨by simpa using h1, h2, h3⟩

/-- **C8 witness**: a duplicate-name add request and a duplicate-fee
update request are rejected on a concrete category list. -/
theorem category_validation_spec_witness :
    add_category [⟨"Tuition", some 500⟩] "tuition " 600 = [⟨"Tuition", some 500⟩] ∧
    update_category [⟨"Tuition", some 500⟩, ⟨"Extra", some 300⟩] "Extra" (some 300)
      "Extra" 500 = [⟨"Tuition", some 500⟩, ⟨"Extra", some 300⟩] :=
  ⟨category_validation_spec.1 [⟨"Tuition", some 500⟩] "tuition " 600
      (Or.inl (by decide)),
    category_validation_spec.2.2.1 [⟨"Tuition", some 500⟩, ⟨"Extra", some 300⟩]
      "Extra" (some 300) "Extra" 500 1 (by decide)
      (Or.inr (Or.inr ⟨by decide, by decide⟩))⟩

theorem consumeComma_subset (l : List Char) : ∀ c ∈ consumeComma l, c ∈ l := by
  rw [consumeComma]
  split
  · intro c hc
    cases l with
    | nil => exact absurd hc (by simp)
    | cons a rest => exact List.mem_cons_of_mem a hc
  · intro c hc
    exact hc

theorem legacyScan_chars (P : Char → Prop) :
    ∀ (l f : List Char), (∀ c ∈ l, P c) → (∀ c ∈ f, P c) →
      (∀ c ∈ (legacyScan l f).1, P c) ∧ (∀ c ∈ (legacyScan l f).2, P c) := by
  intro l
  induction l with
  | nil =>
    intro f h1 h2
    rw [legacyScan]
    exact ⟨h2, by simp⟩
  | cons c rest ih =>
    intro f h1 h2
    rw [legacyScan]
    split
    · refine ⟨h2, fun d hd => h1 d (List.mem_cons_of_mem c (consumeComma_subset rest d hd))⟩
    · refine ih (f ++ [c]) (fun d hd => h1 d (List.mem_cons_of_mem c hd)) ?_
      intro d hd
      rcases List.mem_append.1 hd with hd | hd
      · exact h2 d hd
      · rw [List.mem_singleton.1 hd]
        exact h1 c (List.mem_cons_self _ _)

theorem tokenLoop_chars (P : Char → Prop) :
    ∀ (n : ℕ) (l : List Char), l.length ≤ n →
      ∀ (current : List Char) (inQuotes : Bool) (parts : List (List Char)),
      (∀ c ∈ l, P c) → (∀ c ∈ current, P c) →
      (∀ p ∈ parts, ∀ c ∈ p, P c) →
      ∀ p ∈ tokenLoop l current inQuotes parts, ∀ c ∈ p, P c := by
  intro n
  induction n with
  | zero =>
    intro l hl current inQuotes parts h1 h2 h3
    have : l = [] := List.length_eq_zero.mp (Nat.le_zero.mp hl)
    subst this
    rw [tokenLoop]
    split
    · intro p hp
      rcases List.mem_append.1 hp with hp | hp
      · exact h3 p hp
      · rw [List.mem_singleton.1 hp]; exact h2
    · exact h3
  | succ n ih =>
    intro l hl current inQuotes parts h1 h2 h3
    cases l with
    | nil =>
      rw [tokenLoop]
      split
      · intro p hp
        rcases List.mem_append.1 hp with hp | hp
        · exact h3 p hp
        · rw [List.mem_singleton.1 hp]; exact h2
      · exact h3
    | cons c rest =>
      have hrest : rest.length ≤ n := by
        simp only [List.length_cons] at hl; omega
      have hrestP : ∀ d ∈ rest, P d := fun d hd => h1 d (List.mem_cons_of_mem c hd)
      have hcP : P c := h1 c (List.mem_cons_self _ _)
      have htailP : ∀ d ∈ rest.tail, P d := fun d hd =>
        hrestP d (by cases rest with
          | nil => exact absurd hd (by simp)
          | cons a r => exact List.mem_cons_of_mem a hd)
      rw [tokenLoop]
      split
      · have hscan := legacyScan_chars P rest.tail [] htailP (by simp)
        refine ih _ (le_trans (le_trans (legacyScan_rest_length_le rest.tail [])
          (by cases rest <;> simp)) hrest) current inQuotes _ hscan.2 h2 ?_
        intro p hp
        rcases List.mem_append.1 hp with hp | hp
        · exact h3 p hp
        · rw [List.mem_singleton.1 hp]; exact hscan.1
      · split
        · exact ih _ hrest current true parts hrestP h2 h3
        · split
          · refine ih _ (le_trans (consumeComma_length_le rest) hrest) [] false _
              (fun d hd => hrestP d (consumeComma_subset rest d hd)) (by simp) ?_
            intro p hp
            rcases List.mem_append.1 hp with hp | hp
            · exact h3 p hp
            · rw [List.mem_singleton.1 hp]; exact h2
          · split
            · split
              · refine ih _ hrest (current ++ [c]) inQuotes parts hrestP ?_ h3
                intro d hd
                rcases List.mem_append.1 hd with hd | hd
                · exact h2 d hd
                · rw [List.mem_singleton.1 hd]; exact hcP
              · refine ih _ hrest [] inQuotes _ hrestP (by simp) ?_
                intro p hp
                rcases List.mem_append.1 hp with hp | hp
                · exact h3 p hp
                · rw [List.mem_singleton.1 hp]; exact h2
            · refine ih _ hrest (current ++ [c]) inQuotes parts hrestP ?_ h3
              intro d hd
              rcases List.mem_append.1 hd with hd | hd
              · exact h2 d hd
              · rw [List.mem_singleton.1 hd]; exact hcP

/-- **C4 (amended)** — every character of every produced field comes
from the input line: when the line contains no `\n`/`\r`, no produced
field contains `\n`/`\r`.  (As stated over *every* input line the claim
fails: the line's own trailing terminator is copied into the final
field, see the counterexample.) -/
theorem parse_csv_line_no_terminator (s : String)
    (h : ∀ c ∈ s.data, c ≠ '\n' ∧ c ≠ '\r') :
    ∀ f ∈ parse_csv_line s, ∀ c ∈ f.data, c ≠ '\n' ∧ c ≠ '\r' := by
  intro f hf
  rw [parse_csv_line, tokenizeChars_eq] at hf
  obtain ⟨l, hl, rfl⟩ := List.mem_map.1 hf
  exact tokenLoop_chars (fun c => c ≠ '\n' ∧ c ≠ '\r') s.data.length s.data le_rfl
    [] false [] h (by simp) (by simp) l hl

/-- **C4 witness**: the theorem applied to the line `"a,b"`. -/
theorem parse_csv_line_no_terminator_witness :
    (∀ c ∈ ("a,b" : String).data, c ≠ '\n' ∧ c ≠ '\r') ∧
    (∀ f ∈ parse_csv_line "a,b", ∀ c ∈ f.data, c ≠ '\n' ∧ c ≠ '\r') :=
  ⟨by decide, parse_csv_line_no_terminator "a,b" (by decide)⟩

/-- **C4 counterexample** — tokenizing the line `"a\n"` (a line as read
by `readlines`, terminator included) produces the single field `"a\n"`,
which contains the line terminator `\n`: the tokenizer does *not*
guarantee terminator-free fields for every input line. -/
theorem parse_csv_line_emits_terminator :
    parse_csv_line "a\n" = ["a\n"] ∧ '\n' ∈ ("a\n" : String).data := by decide

theorem legacyScan_wrapped :
    ∀ (body : List Char), legacyOkB body = true →
      ∀ (acc tail : List Char), (tail = [] ∨ tail.head? = some ',') →
      legacyScan (body ++ '"' :: tail) acc = (acc ++ body, consumeComma tail) := by
  intro body
  induction body with
  | nil =>
    intro _ acc tail htail
    rw [List.nil_append, legacyScan, if_pos]
    · simp
    · refine ⟨rfl, ?_⟩
      rcases htail with h | h
      · subst h; exact Or.inl rfl
      · exact Or.inr (Or.inl h)
  | cons b body' ih =>
    intro hok acc tail htail
    rw [legacyOkB, Bool.and_eq_true] at hok
    rw [List.cons_append, legacyScan, if_neg]
    · rw [ih hok.2 (acc ++ [b]) tail htail]
      simp
    · rintro ⟨hb, hcond⟩
      subst hb
      rcases hcond with h | h | h | h
      · exact absurd h (by simp)
      · cases body' with
        | nil => simp at h
        | cons d body'' =>
          rw [List.cons_append, List.head?_cons] at h
          simp [h] at hok
      · cases body' with
        | nil => simp at h
        | cons d body'' =>
          rw [List.cons_append, List.head?_cons] at h
          simp [h] at hok
      · cases body' with
        | nil => simp at h
        | cons d body'' =>
          rw [List.cons_append, List.head?_cons] at h
          simp [h] at hok

theorem tokenLoop_plain_field :
    ∀ (f : List Char), (∀ c ∈ f, c ≠ '"') → f.getLast? ≠ some '=' →
      ∀ (acc : List Char) (parts : List (List Char)) (tail : List Char),
      (tail = [] ∨ tail.head? = some ',') →
      tokenLoop (f ++ '"' :: tail) acc true parts =
        tokenLoop (consumeComma tail) [] false (parts ++ [acc ++ f]) := by
  intro f
  induction f with
  | nil =>
    intro _ _ acc parts tail htail
    rw [List.nil_append, tokenLoop, if_neg, if_neg, if_pos ⟨rfl, rfl⟩]
    · simp
    · simp
    · rintro ⟨_, hcond⟩
      rcases htail with h | h
      · subst h; simp at hcond
      · rw [hcond] at h; simp at h
  | cons c f' ih =>
    intro hq hlast acc parts tail htail
    have hcq : c ≠ '"' := hq c (List.mem_cons_self _ _)
    have hq' : ∀ d ∈ f', d ≠ '"' := fun d hd => hq d (List.mem_cons_of_mem c hd)
    have hlast' : f'.getLast? ≠ some '=' := by
      cases f' with
      | nil => simp
      | cons d f'' => rwa [List.getLast?_cons_cons] at hlast
    have hcond1 : ¬(c = '=' ∧ (f' ++ '"' :: tail).head? = some '"') := by
      rintro ⟨hc, hh⟩
      cases f' with
      | nil =>
        subst hc
        simp at hlast
      | cons d f'' =>
        rw [List.cons_append, List.head?_cons] at hh
        exact hq' d (List.mem_cons_self _ _) (by injection hh)
    rw [List.cons_append, tokenLoop, if_neg hcond1, if_neg (by simp [hcq]),
      if_neg (by simp [hcq])]
    by_cases hc : c = ','
    · rw [if_pos hc, if_pos rfl, ih hq' hlast' (acc ++ [c]) parts tail htail]
      simp
    · rw [if_neg hc, ih hq' hlast' (acc ++ [c]) parts tail htail]
      simp

theorem buildLine_cons_cons (w : Wrap) (f : List Char) (q : Wrap × List Char)
    (rest : List (Wrap × List Char)) :
    buildLine ((w, f) :: q :: rest) = wrapField w f ++ ',' :: buildLine (q :: rest) :=
  rfl

theorem tokenLoop_buildLine :
    ∀ (fields : List (Wrap × List Char)),
      (∀ p ∈ fields, wrapOk p.1 p.2 = true) →
      ∀ parts : List (List Char),
        tokenLoop (buildLine fields) [] false parts = parts ++ fields.map (·.2) := by
  intro fields
  induction fields with
  | nil =>
    intro _ parts
    rw [buildLine, tokenLoop]
    simp
  | cons wf rest ih =>
    obtain ⟨w, f⟩ := wf
    intro h parts
    have hwf : wrapOk w f = true := h (w, f) (List.mem_cons_self _ _)
    have hrest : ∀ p ∈ rest, wrapOk p.1 p.2 = true :=
      fun p hp => h p (List.mem_cons_of_mem _ hp)
    cases rest with
    | nil =>
      cases w with
      | legacy =>
        rw [buildLine, wrapField, tokenLoop, if_pos ⟨rfl, rfl⟩]
        have hscan : legacyScan (('"' :: (f ++ ['"'])).tail) [] = (f, []) := by
          rw [List.tail_cons]
          rw [show f ++ ['"'] = f ++ '"' :: [] from rfl]
          rw [legacyScan_wrapped f hwf [] [] (Or.inl rfl)]
          simp [consumeComma]
        rw [hscan]
        rw [tokenLoop]
        simp
      | plain =>
        rw [wrapOk, Bool.and_eq_true, List.all_eq_true] at hwf
        rw [buildLine, wrapField, tokenLoop, if_neg (by simp),
          if_pos ⟨rfl, rfl⟩]
        rw [show f ++ ['"'] = f ++ '"' :: [] from rfl]
        rw [tokenLoop_plain_field f (fun c hc => by simpa using hwf.1 c hc)
          (by simpa using hwf.2) [] parts [] (Or.inl rfl)]
        rw [show consumeComma [] = ([] : List Char) from rfl, tokenLoop]
        simp
    | cons wf2 rest2 =>
      cases w with
      | legacy =>
        rw [buildLine_cons_cons, wrapField]
        rw [show ('=' :: '"' :: (f ++ ['"'])) ++ ',' :: buildLine (wf2 :: rest2) =
          '=' :: '"' :: (f ++ '"' :: ',' :: buildLine (wf2 :: rest2)) by simp]
        rw [tokenLoop, if_pos ⟨rfl, rfl⟩, List.tail_cons]
        rw [legacyScan_wrapped f hwf [] (',' :: buildLine (wf2 :: rest2)) (Or.inr rfl)]
        rw [show consumeComma (',' :: buildLine (wf2 :: rest2)) =
          buildLine (wf2 :: rest2) by rw [consumeComma]; simp]
        rw [ih hrest (parts ++ [[] ++ f])]
        simp
      | plain =>
        rw [wrapOk, Bool.and_eq_true, List.all_eq_true] at hwf
        rw [buildLine_cons_cons, wrapField]
        rw [show ('"' :: (f ++ ['"'])) ++ ',' :: buildLine (wf2 :: rest2) =
          '"' :: (f ++ '"' :: ',' :: buildLine (wf2 :: rest2)) by simp]
        rw [tokenLoop, if_neg (by simp), if_pos ⟨rfl, rfl⟩]
        rw [tokenLoop_plain_field f (fun c hc => by simpa using hwf.1 c hc)
          (by simpa using hwf.2) [] parts (',' :: buildLine (wf2 :: rest2))
          (Or.inr rfl)]
        rw [show consumeComma (',' :: buildLine (wf2 :: rest2)) =
          buildLine (wf2 :: rest2) by rw [consumeComma]; simp]
        rw [ih hrest (parts ++ [[] ++ f])]
        simp

/-- **C3 (amended)** — the tokenizer round-trip holds for every list of
fields each wrapped in legacy `="..."` or plain `"..."` quoting and
joined with commas, provided each plain-quoted field contains no `"`
and does not end in `=`, and each legacy-quoted field contains no `"`
immediately followed by `,`, `\n` or `\r` (`wrapOk`); without these
provisos the claim fails, see the counterexample. -/
theorem tokenizer_roundtrip (fields : List (Wrap × List Char))
    (h : ∀ p ∈ fields, wrapOk p.1 p.2 = true) :
    tokenizeChars (buildLine fields) = fields.map (·.2) ∧
    parse_csv_line (String.mk (buildLine fields)) =
      fields.map (fun p => String.mk p.2) := by
  have main := tokenLoop_buildLine fields h []
  constructor
  · rw [tokenizeChars_eq]
    simpa using main
  · rw [parse_csv_line]
    rw [show (String.mk (buildLine fields)).data = buildLine fields from rfl]
    rw [tokenizeChars_eq]
    rw [show tokenLoop (buildLine fields) [] false [] = fields.map (·.2) by
      simpa using main]
    simp

/-- **C3 witness**: a three-field line mixing the two quotings, with an
embedded comma in the plain field and an empty legacy field. -/
theorem tokenizer_roundtrip_witness :
    (∀ p ∈ [(Wrap.legacy, "05-01-2024".data), (Wrap.plain, "a,b".data),
        (Wrap.legacy, ([] : List Char))], wrapOk p.1 p.2 = true) ∧
    parse_csv_line (String.mk (buildLine
      [(Wrap.legacy, "05-01-2024".data), (Wrap.plain, "a,b".data),
       (Wrap.legacy, ([] : List Char))])) = ["05-01-2024", "a,b", ""] :=
  ⟨by decide,
    (tokenizer_roundtrip
      [(Wrap.legacy, "05-01-2024".data), (Wrap.plain, "a,b".data),
       (Wrap.legacy, ([] : List Char))] (by decide)).2⟩

/-- **C3 counterexample** — the claim as stated (only raw newlines
excluded from fields) is false: plain-quoting the field `a"b` and
tokenizing yields the two fields `a`, `b`, not the original single
field. -/
theorem tokenizer_roundtrip_fails_on_quote :
    ('\n' ∉ ("a\"b" : String).data) ∧
    parse_csv_line (String.mk (buildLine [(Wrap.plain, ("a\"b" : String).data)])) =
      ["a", "b"] ∧
    (["a", "b"] : List String) ≠ ["a\"b"] := by decide

/-! ### Dictionary and arena lemmas -/

theorem lookupCat_mem :
    ∀ {cd : List (String × List ℕ)} {k : String} {l : List ℕ},
      lookupCat cd k = some l → (k, l) ∈ cd := by
  intro cd
  induction cd with
  | nil => intro k l h; exact absurd h (by simp [lookupCat])
  | cons p rest ih =>
    intro k l h
    obtain ⟨k', l'⟩ := p
    rw [lookupCat] at h
    split_ifs at h with hk
    · subst hk
      rw [Option.some_inj] at h
      subst h
      exact List.mem_cons_self _ _
    · exact List.mem_cons_of_mem _ (ih h)

theorem keyList_setCat (k : String) (l : List ℕ) :
    ∀ cd : List (String × List ℕ), keyList (setCat cd k l) = keyList cd := by
  intro cd
  induction cd with
  | nil => rfl
  | cons p rest ih =>
    obtain ⟨k', l'⟩ := p
    rw [setCat]
    split_ifs with hk
    · rfl
    · simp only [keyList, List.map_cons] at ih ⊢
      rw [ih]

theorem lookupCat_none_iff :
    ∀ (cd : List (String × List ℕ)) (k : String),
      lookupCat cd k = none ↔ k ∉ keyList cd := by
  intro cd
  induction cd with
  | nil => intro k; simp [lookupCat, keyList]
  | cons p rest ih =>
    intro k
    obtain ⟨k', l'⟩ := p
    rw [lookupCat]
    split_ifs with hk
    · subst hk; simp [keyList]
    · simp [keyList, ih, Ne.symm hk]

theorem mem_setCat :
    ∀ {cd : List (String × List ℕ)} {k : String} {l : List ℕ} {p : String × List ℕ},
      p ∈ setCat cd k l → p ∈ cd ∨ p = (k, l) := by
  intro cd
  induction cd with
  | nil => intro k l p h; exact absurd h (by simp [setCat])
  | cons q rest ih =>
    intro k l p h
    obtain ⟨k', l'⟩ := q
    rw [setCat] at h
    split_ifs at h with hk
    · subst hk
      rcases List.mem_cons.1 h with h | h
      · exact Or.inr (by simpa using h)
      · exact Or.inl (List.mem_cons_of_mem _ h)
    · rcases List.mem_cons.1 h with h | h
      · exact Or.inl (by simp [h])
      · rcases ih h with h | h
        · exact Or.inl (List.mem_cons_of_mem _ h)
        · exact Or.inr h

theorem idsOf_cons (p : String × List ℕ) (rest : List (String × List ℕ)) :
    idsOf (p :: rest) = p.2 ++ idsOf rest := by
  simp [idsOf]

theorem idsOf_setCat :
    ∀ {cd : List (String × List ℕ)} {k : String} {l : List ℕ},
      lookupCat cd k = some l → ∀ l' : List ℕ,
      (idsOf (setCat cd k l') : Multiset ℕ) + (l : Multiset ℕ) =
        (idsOf cd : Multiset ℕ) + (l' : Multiset ℕ) := by
  intro cd
  induction cd with
  | nil => intro k l h; exact absurd h (by simp [lookupCat])
  | cons q rest ih =>
    intro k l h l'
    obtain ⟨k', l₀⟩ := q
    rw [lookupCat] at h
    rw [setCat]
    split_ifs at h ⊢ with hk
    · rw [Option.some_inj] at h
      subst h
      rw [idsOf_cons, idsOf_cons]
      simp only [← Multiset.coe_add]
      abel
    · rw [idsOf_cons, idsOf_cons]
      simp only [← Multiset.coe_add]
      have := ih h l'
      push_cast at this ⊢
      rw [add_assoc, add_assoc]
      rw [show ((idsOf (setCat rest k l') : Multiset ℕ) + (l : Multiset ℕ)) =
        ((idsOf rest : Multiset ℕ) + (l' : Multiset ℕ)) from this]

theorem idsOf_all_nil :
    ∀ {cd : List (String × List ℕ)}, (∀ p ∈ cd, p.2 = []) → idsOf cd = [] := by
  intro cd
  induction cd with
  | nil => intro _; rfl
  | cons p rest ih =>
    intro h
    rw [idsOf_cons, h p (List.mem_cons_self _ _), List.nil_append]
    exact ih (fun q hq => h q (List.mem_cons_of_mem _ hq))

theorem keyList_map_nil (cd : List (String × List ℕ)) :
    keyList (cd.map (fun p => (p.1, ([] : List ℕ)))) = keyList cd := by
  simp [keyList]

theorem idsOf_map_nil (cd : List (String × List ℕ)) :
    idsOf (cd.map (fun p => (p.1, ([] : List ℕ)))) = [] := by
  induction cd with
  | nil => rfl
  | cons p rest ih => simpa [idsOf_cons] using ih

theorem sum_lengths_eq_length_idsOf (cd : List (String × List ℕ)) :
    (cd.map (fun p => p.2.length)).sum = (idsOf cd).length := by
  induction cd with
  | nil => rfl
  | cons p rest ih => simp [idsOf_cons, ih]

theorem length_set_txn (a : List Txn) (i : ℕ) (t : Txn) :
    (a.set i t).length = a.length := List.length_set a i t

theorem nthTxn_set_ne :
    ∀ (a : List Txn) (i j : ℕ) (t : Txn), j ≠ i →
      nthTxn (a.set i t) j = nthTxn a j := by
  intro a
  induction a with
  | nil => intro i j t _; rfl
  | cons x rest ih =>
    intro i j t hij
    cases i with
    | zero =>
      cases j with
      | zero => exact absurd rfl hij
      | succ j' => rfl
    | succ i' =>
      cases j with
      | zero => rfl
      | succ j' =>
        rw [List.set_cons_succ]
        exact ih i' j' t (fun h => hij (by rw [h]))

theorem nthTxn_set_self :
    ∀ (a : List Txn) (i : ℕ) (t : Txn), i < a.length →
      nthTxn (a.set i t) i = t := by
  intro a
  induction a with
  | nil => intro i t h; exact absurd h (by simp)
  | cons x rest ih =>
    intro i t h
    cases i with
    | zero => rfl
    | succ i' =>
      rw [List.set_cons_succ]
      exact ih i' t (by simpa using h)

theorem set_txn_oob :
    ∀ (a : List Txn) (i : ℕ) (t : Txn), a.length ≤ i → a.set i t = a := by
  intro a
  induction a with
  | nil => intro i t _; cases i <;> rfl
  | cons x rest ih =>
    intro i t h
    cases i with
    | zero => exact absurd h (by simp)
    | succ i' =>
      rw [List.set_cons_succ]
      rw [ih i' t (by simpa using h)]

theorem nthTxn_set_amount (a : List Txn) (i : ℕ) (t : Txn)
    (ht : t.amount = (nthTxn a i).amount) :
    ∀ k, (nthTxn (a.set i t) k).amount = (nthTxn a k).amount := by
  intro k
  by_cases hk : k = i
  · subst hk
    by_cases hi : k < a.length
    · rw [nthTxn_set_self a k t hi, ht]
    · rw [set_txn_oob a k t (le_of_not_lt hi)]
  · rw [nthTxn_set_ne a i k t hk]

/-! ### Re-categorization (C6) -/

theorem recatLoop_spec (cats : List Category) :
    ∀ (rest : List ℕ) (arena : List Txn) (cd : List (String × List ℕ)),
      (∀ i ∈ rest, i < arena.length) →
      (∀ i ∈ rest,
        categorize_transaction (nthTxn arena i).amount cats ∈ keyList cd) →
      (∀ p ∈ cd, ∀ m ∈ p.2,
        (nthTxn arena m).category = p.1 ∧
        p.1 = categorize_transaction (nthTxn arena m).amount cats) →
      (recatLoop cats arena cd rest).2.2 = true ∧
      keyList (recatLoop cats arena cd rest).2.1 = keyList cd ∧
      ((idsOf (recatLoop cats arena cd rest).2.1 : Multiset ℕ) =
        (idsOf cd : Multiset ℕ) + (rest : Multiset ℕ)) ∧
      (∀ k, (nthTxn (recatLoop cats arena cd rest).1 k).amount =
        (nthTxn arena k).amount) ∧
      (∀ p ∈ (recatLoop cats arena cd rest).2.1, ∀ m ∈ p.2,
        (nthTxn (recatLoop cats arena cd rest).1 m).category = p.1) := by
  intro rest
  induction rest with
  | nil =>
    intro arena cd _ _ h2
    refine ⟨rfl, rfl, by simp [recatLoop], fun k => rfl, ?_⟩
    intro p hp m hm
    exact (h2 p hp m hm).1
  | cons i rest' ih =>
    intro arena cd hb h1 h2
    have hib : i < arena.length := hb i (List.mem_cons_self _ _)
    obtain ⟨l, hl⟩ : ∃ l,
        lookupCat cd (categorize_transaction (nthTxn arena i).amount cats) =
          some l := by
      cases hlk : lookupCat cd
          (categorize_transaction (nthTxn arena i).amount cats) with
      | none =>
        exact absurd ((lookupCat_none_iff _ _).1 hlk)
          (by simpa using h1 i (List.mem_cons_self _ _))
      | some l => exact ⟨l, rfl⟩
    have hl_mem : (categorize_transaction (nthTxn arena i).amount cats, l) ∈ cd :=
      lookupCat_mem hl
    have hamt : ∀ k, (nthTxn (recatSet cats arena i) k).amount =
        (nthTxn arena k).amount :=
      nthTxn_set_amount arena i _ rfl
    have hlen : (recatSet cats arena i).length = arena.length :=
      List.length_set arena i _
    have hcatI : (nthTxn (recatSet cats arena i) i).category =
        categorize_transaction (nthTxn arena i).amount cats := by
      rw [recatSet, nthTxn_set_self arena i _ hib]
    have hcatNe : ∀ m, m ≠ i → nthTxn (recatSet cats arena i) m = nthTxn arena m :=
      fun m hm => nthTxn_set_ne arena i m _ hm
    have hstep : recatLoop cats arena cd (i :: rest') =
        recatLoop cats (recatSet cats arena i)
          (setCat cd (categorize_transaction (nthTxn arena i).amount cats)
            (l ++ [i])) rest' := by
      rw [recatLoop, hl]
    have h2' : ∀ p ∈ setCat cd
        (categorize_transaction (nthTxn arena i).amount cats) (l ++ [i]),
        ∀ m ∈ p.2,
        (nthTxn (recatSet cats arena i) m).category = p.1 ∧
        p.1 = categorize_transaction
          (nthTxn (recatSet cats arena i) m).amount cats := by
      intro p hp m hm
      have hfromcd : p ∈ cd →
          (nthTxn (recatSet cats arena i) m).category = p.1 ∧
          p.1 = categorize_transaction
            (nthTxn (recatSet cats arena i) m).amount cats := by
        intro hpcd
        have hold := h2 p hpcd m hm
        by_cases hmi : m = i
        · subst hmi
          constructor
          · rw [hcatI, hold.2]
          · rw [hamt m]
            exact hold.2
        · constructor
          · rw [hcatNe m hmi]
            exact hold.1
          · rw [hamt m]
            exact hold.2
      rcases mem_setCat hp with hp' | hp'
      · exact hfromcd hp'
      · subst hp'
        rcases List.mem_append.1 hm with hm' | hm'
        · have hold := h2 _ hl_mem m hm'
          by_cases hmi : m = i
          · subst hmi
            constructor
            · rw [hcatI]
            · rw [hamt m]
          · constructor
            · rw [hcatNe m hmi]
              exact hold.1
            · rw [hamt m]
              exact hold.2
        · rw [List.mem_singleton.1 hm']
          constructor
          · rw [hcatI]
          · rw [hamt i]
    have h1' : ∀ j ∈ rest',
        categorize_transaction (nthTxn (recatSet cats arena i) j).amount cats ∈
          keyList (setCat cd
            (categorize_transaction (nthTxn arena i).amount cats) (l ++ [i])) := by
      intro j hj
      rw [keyList_setCat, hamt j]
      exact h1 j (List.mem_cons_of_mem _ hj)
    have hb' : ∀ j ∈ rest', j < (recatSet cats arena i).length := by
      intro j hj
      rw [hlen]
      exact hb j (List.mem_cons_of_mem _ hj)
    obtain ⟨hok, hkeys, hids, hamts, hperkey⟩ := ih (recatSet cats arena i)
      (setCat cd (categorize_transaction (nthTxn arena i).amount cats) (l ++ [i]))
      hb' h1' h2'
    rw [hstep]
    refine ⟨hok, by rw [hkeys, keyList_setCat], ?_, ?_, hperkey⟩
    · rw [hids]
      have hsplit := idsOf_setCat hl (l ++ [i])
      have hnet : (idsOf (setCat cd
          (categorize_transaction (nthTxn arena i).amount cats)
          (l ++ [i])) : Multiset ℕ) =
          (idsOf cd : Multiset ℕ) + (([i] : List ℕ) : Multiset ℕ) := by
        have hLHS : (idsOf (setCat cd
            (categorize_transaction (nthTxn arena i).amount cats)
            (l ++ [i])) : Multiset ℕ) + (l : Multiset ℕ) =
            ((idsOf cd : Multiset ℕ) + (([i] : List ℕ) : Multiset ℕ)) +
              (l : Multiset ℕ) := by
          rw [hsplit]
          simp only [← Multiset.coe_add]
          abel
        exact add_right_cancel hLHS
      rw [hnet]
      rw [show ((i :: rest' : List ℕ) : Multiset ℕ) =
        (([i] : List ℕ) : Multiset ℕ) + (rest' : Multiset ℕ) from
          (Multiset.coe_add [i] rest').symm]
      abel
    · intro k
      rw [hamts k, hamt k]

/-- **C6 (amended)** — provided every flat transaction is classified to
a key present in the index (e.g. when a variable-amount catch-all
exists) and the sublists start empty whenever the flat list is empty,
`recategorize_transactions` completes, every flat-list entry is placed
in exactly one per-category sublist (the ids in the index are exactly
the flat list's, with multiplicity, each under the key that equals its
re-written category field), and the sum of the sublists' sizes equals
the flat list's size.  Without the key-presence proviso the claim
fails, see the counterexample. -/
theorem recategorize_transactions_total (s : LState)
    (hb : ∀ i ∈ s.flat, i < s.arena.length)
    (h1 : ∀ i ∈ s.flat,
      categorize_transaction (nthTxn s.arena i).amount s.cats ∈ keyList s.catData)
    (h2 : s.flat = [] → ∀ p ∈ s.catData, p.2 = []) :
    (recategorize_transactions s).2 = true ∧
    ((idsOf (recategorize_transactions s).1.catData : Multiset ℕ) =
      ((recategorize_transactions s).1.flat : Multiset ℕ)) ∧
    ((recategorize_transactions s).1.catData.map (fun p => p.2.length)).sum =
      (recategorize_transactions s).1.flat.length ∧
    (∀ p ∈ (recategorize_transactions s).1.catData, ∀ m ∈ p.2,
      (nthTxn (recategorize_transactions s).1.arena m).category = p.1) := by
  rw [recategorize_transactions]
  by_cases hflat : s.flat = []
  · rw [if_pos hflat]
    have hnil := idsOf_all_nil (h2 hflat)
    refine ⟨rfl, by simp [hnil, hflat], ?_, ?_⟩
    · rw [sum_lengths_eq_length_idsOf, hnil, hflat]
    · intro p hp m hm
      rw [h2 hflat p hp] at hm
      exact absurd hm (by simp)
  · rw [if_neg hflat]
    have h2init : ∀ p ∈ s.catData.map (fun q => (q.1, ([] : List ℕ))), ∀ m ∈ p.2,
        (nthTxn s.arena m).category = p.1 ∧
        p.1 = categorize_transaction (nthTxn s.arena m).amount s.cats := by
      intro p hp m hm
      obtain ⟨q, _, rfl⟩ := List.mem_map.1 hp
      exact absurd hm (by simp)
    obtain ⟨hok, _, hids, _, hperkey⟩ := recatLoop_spec s.cats s.flat s.arena
      (s.catData.map (fun p => (p.1, ([] : List ℕ))))
      hb (by simpa [keyList_map_nil] using h1) h2init
    refine ⟨hok, ?_, ?_, hperkey⟩
    · rw [hids, idsOf_map_nil]
      simp
    · rw [sum_lengths_eq_length_idsOf]
      have hcard := congrArg Multiset.card hids
      rw [idsOf_map_nil] at hcard
      simpa using hcard

/-- **C6 witness**: re-categorization on a two-transaction ledger with a
fixed-fee category and a catch-all. -/
theorem recategorize_transactions_total_witness :
    (recategorize_transactions c6WitState).2 = true ∧
    ((idsOf (recategorize_transactions c6WitState).1.catData : Multiset ℕ) =
      ((recategorize_transactions c6WitState).1.flat : Multiset ℕ)) ∧
    ((recategorize_transactions c6WitState).1.catData.map
      (fun p => p.2.length)).sum =
      (recategorize_transactions c6WitState).1.flat.length ∧
    (∀ p ∈ (recategorize_transactions c6WitState).1.catData, ∀ m ∈ p.2,
      (nthTxn (recategorize_transactions c6WitState).1.arena m).category = p.1) :=
  recategorize_transactions_total c6WitState (by decide) (by decide) (by decide)

/-- **C6 counterexample** — on `c6State` (amount 77, no catch-all) the
claim as stated fails: re-categorization aborts on the `KeyError` for
`"Uncategorized"`, and afterwards the sum of the sublists' sizes is 0
while the flat list has one transaction. -/
theorem recategorize_transactions_not_total :
    (recategorize_transactions c6State).2 = false ∧
    ((recategorize_transactions c6State).1.catData.map
      (fun p => p.2.length)).sum = 0 ∧
    (recategorize_transactions c6State).1.flat.length = 1 := by decide

/-! ### Ledger-invariant helper lemmas (C5) -/

theorem eraseFirstVal_some :
    ∀ {arena : List Txn} {ids : List ℕ} {v : Txn} {l' : List ℕ},
      eraseFirstVal arena ids v = some l' →
      ∃ ids₁ j ids₂, ids = ids₁ ++ j :: ids₂ ∧ l' = ids₁ ++ ids₂ ∧
        nthTxn arena j = v ∧ ∀ k ∈ ids₁, nthTxn arena k ≠ v := by
  intro arena ids
  induction ids with
  | nil => intro v l' h; exact absurd h (by simp [eraseFirstVal])
  | cons j rest ih =>
    intro v l' h
    rw [eraseFirstVal] at h
    split_ifs at h with hj
    · rw [Option.some_inj] at h
      exact ⟨[], j, rest, by simp, by simp [h], hj, by simp⟩
    · cases herase : eraseFirstVal arena rest v with
      | none => rw [herase] at h; exact absurd h (by simp)
      | some r =>
        rw [herase] at h
        simp only [Option.map_some', Option.some_inj] at h
        obtain ⟨ids₁, j', ids₂, hsplit, hr, hv, hpre⟩ := ih herase
        refine ⟨j :: ids₁, j', ids₂, by simp [hsplit], by simp [← h, hr], hv, ?_⟩
        intro k hk
        rcases List.mem_cons.1 hk with hk | hk
        · subst hk; exact hj
        · exact hpre k hk

theorem memVal_iff {arena : List Txn} {ids : List ℕ} {v : Txn} :
    memVal arena ids v = true ↔ ∃ j ∈ ids, nthTxn arena j = v := by
  rw [memVal, List.any_eq_true]
  constructor
  · rintro ⟨j, hj, hv⟩
    exact ⟨j, hj, by simpa using hv⟩
  · rintro ⟨j, hj, hv⟩
    exact ⟨j, hj, by simpa using hv⟩

theorem mem_idsOf_of_mem :
    ∀ {cd : List (String × List ℕ)} {p : String × List ℕ} {i : ℕ},
      p ∈ cd → i ∈ p.2 → i ∈ idsOf cd := by
  intro cd p i hp hi
  rw [idsOf, List.mem_flatten]
  exact ⟨p.2, List.mem_map_of_mem _ hp, hi⟩

theorem mem_idsOf_elim :
    ∀ {cd : List (String × List ℕ)} {i : ℕ},
      i ∈ idsOf cd → ∃ p ∈ cd, i ∈ p.2 := by
  intro cd i h
  rw [idsOf, List.mem_flatten] at h
  obtain ⟨l, hl, hil⟩ := h
  obtain ⟨p, hp, rfl⟩ := List.mem_map.1 hl
  exact ⟨p, hp, hil⟩

theorem entry_unique :
    ∀ {cd : List (String × List ℕ)}, (keyList cd).Nodup →
      ∀ p ∈ cd, ∀ q ∈ cd, p.1 = q.1 → p = q := by
  intro cd
  induction cd with
  | nil => intro _ p hp; exact absurd hp (by simp)
  | cons r rest ih =>
    intro hnd p hp q hq hpq
    rw [keyList, List.map_cons, List.nodup_cons] at hnd
    rcases List.mem_cons.1 hp with hp' | hp' <;> rcases List.mem_cons.1 hq with hq' | hq'
    · rw [hp', hq']
    · subst hp'
      exact absurd (hpq ▸ List.mem_map_of_mem Prod.fst hq') hnd.1
    · subst hq'
      exact absurd (hpq ▸ List.mem_map_of_mem Prod.fst hp') hnd.1
    · exact ih hnd.2 p hp' q hq' hpq

theorem lookupCat_of_mem :
    ∀ {cd : List (String × List ℕ)}, (keyList cd).Nodup →
      ∀ p ∈ cd, lookupCat cd p.1 = some p.2 := by
  intro cd
  induction cd with
  | nil => intro _ p hp; exact absurd hp (by simp)
  | cons r rest ih =>
    intro hnd p hp
    obtain ⟨k', l'⟩ := r
    rw [keyList, List.map_cons, List.nodup_cons] at hnd
    rw [lookupCat]
    rcases List.mem_cons.1 hp with hp' | hp'
    · subst hp'
      rw [if_pos rfl]
    · split_ifs with hk
      · subst hk
        exact absurd (List.mem_map_of_mem Prod.fst hp') hnd.1
      · exact ih hnd.2 p hp'

theorem setCat_self :
    ∀ {cd : List (String × List ℕ)} {k : String} {l : List ℕ},
      lookupCat cd k = some l → setCat cd k l = cd := by
  intro cd
  induction cd with
  | nil => intro k l _; rfl
  | cons r rest ih =>
    intro k l h
    obtain ⟨k', l'⟩ := r
    rw [lookupCat] at h
    rw [setCat]
    split_ifs at h ⊢ with hk
    · rw [Option.some_inj] at h
      rw [h]
    · rw [ih h]

theorem nthTxn_append_left :
    ∀ (a b : List Txn) (m : ℕ), m < a.length →
      nthTxn (a ++ b) m = nthTxn a m := by
  intro a
  induction a with
  | nil => intro b m h; exact absurd h (by simp)
  | cons x rest ih =>
    intro b m h
    cases m with
    | zero => rfl
    | succ m' => exact ih b m' (by simpa using h)

theorem nthTxn_append_self :
    ∀ (a : List Txn) (t : Txn), nthTxn (a ++ [t]) a.length = t := by
  intro a t
  induction a with
  | nil => rfl
  | cons x rest ih => exact ih

theorem ms_nodup_erase {m₁ m₂ : Multiset ℕ} {j : ℕ}
    (h : m₁ + {j} = m₂) (hn : m₂.Nodup) : m₁.Nodup ∧ j ∉ m₁ := by
  have hle : m₁ ≤ m₂ := h ▸ Multiset.le_add_right m₁ {j}
  refine ⟨Multiset.nodup_of_le hle hn, fun hj => ?_⟩
  have hcount := Multiset.nodup_iff_count_le_one.1 hn j
  rw [← h, Multiset.count_add, Multiset.count_singleton_self] at hcount
  have := Multiset.one_le_count_iff_mem.2 hj
  omega

theorem ms_nodup_insert {m₁ : Multiset ℕ} {j : ℕ}
    (hn : m₁.Nodup) (hj : j ∉ m₁) : (m₁ + {j}).Nodup := by
  rw [add_comm, Multiset.singleton_add, Multiset.nodup_cons]
  exact ⟨hj, hn⟩

theorem coe_erase_decomp (l₁ l₂ : List ℕ) (j : ℕ) :
    ((l₁ ++ j :: l₂ : List ℕ) : Multiset ℕ) =
      ((l₁ ++ l₂ : List ℕ) : Multiset ℕ) + ({j} : Multiset ℕ) := by
  simp only [← Multiset.coe_add, ← Multiset.cons_coe, ← Multiset.singleton_add]
  abel

theorem coe_append_singleton (l : List ℕ) (j : ℕ) :
    ((l ++ [j] : List ℕ) : Multiset ℕ) =
      ((l : List ℕ) : Multiset ℕ) + ({j} : Multiset ℕ) := by
  simp only [← Multiset.coe_add]
  rfl

theorem edit_preserves (s : LState) (i : ℕ) (nm dt : String) (amt : ℚ)
    (newCat : String) (s' : LState) (hinv : LedgerInv s)
    (h : edit_transaction s i nm dt amt newCat = some s') : LedgerInv s' := by
  obtain ⟨hb, hkeys, hfnd, hind, hperm, hpk⟩ := hinv
  rw [edit_transaction] at h
  by_cases hc : (nthTxn s.arena i).category = newCat
  · rw [if_pos hc, Option.some_inj] at h
    subst h
    refine ⟨?_, hkeys, hfnd, hind, hperm, ?_⟩
    · intro m hm
      rw [show ({ s with arena := s.arena.set i (editSet s i nm dt amt newCat) } :
        LState).arena = s.arena.set i (editSet s i nm dt amt newCat) from rfl,
        List.length_set]
      exact hb m hm
    · intro p hp m hm
      by_cases hmi : m = i
      · subst hmi
        by_cases hil : m < s.arena.length
        · rw [show ({ s with arena := s.arena.set m (editSet s m nm dt amt newCat) } :
            LState).arena = s.arena.set m (editSet s m nm dt amt newCat) from rfl,
            nthTxn_set_self _ _ _ hil,
            show (editSet s m nm dt amt newCat).category = newCat from rfl, ← hc]
          exact hpk p hp m hm
        · rw [show ({ s with arena := s.arena.set m (editSet s m nm dt amt newCat) } :
            LState).arena = s.arena.set m (editSet s m nm dt amt newCat) from rfl,
            set_txn_oob _ _ _ (le_of_not_lt hil)]
          exact hpk p hp m hm
      · rw [show ({ s with arena := s.arena.set i (editSet s i nm dt amt newCat) } :
          LState).arena = s.arena.set i (editSet s i nm dt amt newCat) from rfl,
          nthTxn_set_ne _ _ _ _ hmi]
        exact hpk p hp m hm
  · rw [if_neg hc] at h
    split at h
    next => exact absurd h (by simp)
    next l hlkOld =>
      split at h
      next => exact absurd h (by simp)
      next l' herase =>
        split at h
        next => exact absurd h (by simp)
        next l2 hlkNew =>
          rw [Option.some_inj] at h
          subst h
          have holmem : ((nthTxn s.arena i).category, l) ∈ s.catData :=
            lookupCat_mem hlkOld
          obtain ⟨l₁, j, l₂, hldec, hl'val, hjval, _⟩ := eraseFirstVal_some herase
          have hjl : j ∈ l := by
            rw [hldec]
            exact List.mem_append.2 (Or.inr (List.mem_cons_self _ _))
          have hjids : j ∈ idsOf s.catData := mem_idsOf_of_mem holmem hjl
          have hjflat : j ∈ s.flat := hperm.mem_iff.2 hjids
          have hjlen : j < s.arena.length := hb j hjflat
          have hji : j = i := by
            by_contra hji
            rw [nthTxn_set_ne _ _ _ _ hji] at hjval
            have hcateq := congrArg Txn.category hjval
            rw [show (editSet s i nm dt amt newCat).category = newCat from rfl]
              at hcateq
            have hcat2 : (nthTxn s.arena j).category =
                (nthTxn s.arena i).category := hpk _ holmem j hjl
            rw [hcat2] at hcateq
            exact hc hcateq
          subst hji
          have hilen : j < s.arena.length := hjlen
          have hlcoe : ((l : List ℕ) : Multiset ℕ) =
              ((l' : List ℕ) : Multiset ℕ) + ({j} : Multiset ℕ) := by
            rw [hldec, hl'val]
            exact coe_erase_decomp l₁ l₂ j
          have hms1 := idsOf_setCat hlkOld l'
          have hms2 : (idsOf (setCat s.catData (nthTxn s.arena j).category l') :
              Multiset ℕ) + ({j} : Multiset ℕ) = (idsOf s.catData : Multiset ℕ) := by
            have h1 : ((idsOf (setCat s.catData (nthTxn s.arena j).category l') :
                Multiset ℕ) + ({j} : Multiset ℕ)) + ((l' : List ℕ) : Multiset ℕ) =
                (idsOf s.catData : Multiset ℕ) + ((l' : List ℕ) : Multiset ℕ) := by
              calc ((idsOf (setCat s.catData (nthTxn s.arena j).category l') :
                  Multiset ℕ) + ({j} : Multiset ℕ)) + ((l' : List ℕ) : Multiset ℕ)
                  = (idsOf (setCat s.catData (nthTxn s.arena j).category l') :
                    Multiset ℕ) + ((l : List ℕ) : Multiset ℕ) := by
                    rw [hlcoe]; abel
                _ = (idsOf s.catData : Multiset ℕ) + ((l' : List ℕ) : Multiset ℕ) :=
                    hms1
            exact add_right_cancel h1
          have hms3 := idsOf_setCat hlkNew (l2 ++ [j])
          have hms4 : (idsOf (setCat
              (setCat s.catData (nthTxn s.arena j).category l') newCat
              (l2 ++ [j])) : Multiset ℕ) = (idsOf s.catData : Multiset ℕ) := by
            have h1 : (idsOf (setCat
                (setCat s.catData (nthTxn s.arena j).category l') newCat
                (l2 ++ [j])) : Multiset ℕ) + ((l2 : List ℕ) : Multiset ℕ) =
                (idsOf s.catData : Multiset ℕ) + ((l2 : List ℕ) : Multiset ℕ) := by
              calc (idsOf (setCat
                  (setCat s.catData (nthTxn s.arena j).category l') newCat
                  (l2 ++ [j])) : Multiset ℕ) + ((l2 : List ℕ) : Multiset ℕ)
                  = (idsOf (setCat s.catData (nthTxn s.arena j).category l') :
                      Multiset ℕ) + ((l2 ++ [j] : List ℕ) : Multiset ℕ) := hms3
                _ = ((idsOf (setCat s.catData (nthTxn s.arena j).category l') :
                      Multiset ℕ) + ({j} : Multiset ℕ)) +
                      ((l2 : List ℕ) : Multiset ℕ) := by
                    rw [coe_append_singleton]; abel
                _ = (idsOf s.catData : Multiset ℕ) + ((l2 : List ℕ) : Multiset ℕ) := by
                    rw [hms2]
            exact add_right_cancel h1
          have hi_cd1 : j ∉ idsOf (setCat s.catData (nthTxn s.arena j).category l') := by
            intro hmem
            exact (ms_nodup_erase hms2 ((Multiset.coe_nodup).2 hind)).2
              ((Multiset.mem_coe).2 hmem)
          have stepA : ∀ p ∈ setCat s.catData (nthTxn s.arena j).category l',
              ∀ m ∈ p.2,
              (nthTxn (s.arena.set j (editSet s j nm dt amt newCat)) m).category =
                p.1 := by
            intro p hp m hm
            have hmi : m ≠ j := by
              intro he
              subst he
              exact hi_cd1 (mem_idsOf_of_mem hp hm)
            rw [nthTxn_set_ne _ _ _ _ hmi]
            rcases mem_setCat hp with hp' | hp'
            · exact hpk p hp' m hm
            · subst hp'
              have hml : m ∈ l := by
                rw [hldec]
                rcases List.mem_append.1 (hl'val ▸ hm) with hmm | hmm
                · exact List.mem_append.2 (Or.inl hmm)
                · exact List.mem_append.2 (Or.inr (List.mem_cons_of_mem _ hmm))
              exact hpk _ holmem m hml
          refine ⟨?_, ?_, hfnd, ?_, ?_, ?_⟩
          · intro m hm
            rw [show ({ s with
              arena := s.arena.set j (editSet s j nm dt amt newCat),
              catData := setCat (setCat s.catData (nthTxn s.arena j).category l')
                newCat (l2 ++ [j]) } : LState).arena =
              s.arena.set j (editSet s j nm dt amt newCat) from rfl,
              List.length_set]
            exact hb m hm
          · rw [show ({ s with
              arena := s.arena.set j (editSet s j nm dt amt newCat),
              catData := setCat (setCat s.catData (nthTxn s.arena j).category l')
                newCat (l2 ++ [j]) } : LState).catData =
              setCat (setCat s.catData (nthTxn s.arena j).category l')
                newCat (l2 ++ [j]) from rfl,
              keyList_setCat, keyList_setCat]
            exact hkeys
          · rw [show ({ s with
              arena := s.arena.set j (editSet s j nm dt amt newCat),
              catData := setCat (setCat s.catData (nthTxn s.arena j).category l')
                newCat (l2 ++ [j]) } : LState).catData =
              setCat (setCat s.catData (nthTxn s.arena j).category l')
                newCat (l2 ++ [j]) from rfl]
            rw [← Multiset.coe_nodup, hms4, Multiset.coe_nodup]
            exact hind
          · rw [show ({ s with
              arena := s.arena.set j (editSet s j nm dt amt newCat),
              catData := setCat (setCat s.catData (nthTxn s.arena j).category l')
                newCat (l2 ++ [j]) } : LState).catData =
              setCat (setCat s.catData (nthTxn s.arena j).category l')
                newCat (l2 ++ [j]) from rfl]
            rw [← Multiset.coe_eq_coe, hms4, Multiset.coe_eq_coe]
            exact hperm
          · intro p hp m hm
            rcases mem_setCat hp with hp' | hp'
            · exact stepA p hp' m hm
            · subst hp'
              rcases List.mem_append.1 hm with hm' | hm'
              · exact stepA _ (lookupCat_mem hlkNew) m hm'
              · rw [List.mem_singleton.1 hm']
                rw [show ({ s with
                  arena := s.arena.set j (editSet s j nm dt amt newCat),
                  catData := setCat (setCat s.catData (nthTxn s.arena j).category l')
                    newCat (l2 ++ [j]) } : LState).arena =
                  s.arena.set j (editSet s j nm dt amt newCat) from rfl,
                  nthTxn_set_self _ _ _ hilen]
                rfl

theorem dup_preserves (s : LState) (i : ℕ) (nm dt : String) (amt : ℚ)
    (cat : String) (hinv : LedgerInv s) (hcat : cat ∈ keyList s.catData) :
    LedgerInv (duplicateOne s i nm dt amt cat) := by
  obtain ⟨hb, hkeys, hfnd, hind, hperm, hpk⟩ := hinv
  obtain ⟨l, hl⟩ : ∃ l, lookupCat s.catData cat = some l := by
    cases hlk : lookupCat s.catData cat with
    | none => exact absurd ((lookupCat_none_iff _ _).1 hlk) (by simp [hcat])
    | some l => exact ⟨l, rfl⟩
  have hArena : (duplicateOne s i nm dt amt cat).arena =
      s.arena ++ [dupTxn s i nm dt amt cat] := rfl
  have hFlat : (duplicateOne s i nm dt amt cat).flat =
      s.flat ++ [s.arena.length] := rfl
  have hCd : (duplicateOne s i nm dt amt cat).catData =
      setCat s.catData cat (l ++ [s.arena.length]) := by
    rw [duplicateOne, hl]
  have hlen_not_flat : s.arena.length ∉ s.flat :=
    fun hmem => absurd (hb _ hmem) (by omega)
  have hlen_not_ids : s.arena.length ∉ idsOf s.catData :=
    fun hmem => hlen_not_flat (hperm.mem_iff.2 hmem)
  have hms : (idsOf (setCat s.catData cat (l ++ [s.arena.length])) : Multiset ℕ) =
      (idsOf s.catData : Multiset ℕ) + ({s.arena.length} : Multiset ℕ) := by
    have h1 : (idsOf (setCat s.catData cat (l ++ [s.arena.length])) : Multiset ℕ) +
        ((l : List ℕ) : Multiset ℕ) =
        ((idsOf s.catData : Multiset ℕ) + ({s.arena.length} : Multiset ℕ)) +
          ((l : List ℕ) : Multiset ℕ) := by
      calc (idsOf (setCat s.catData cat (l ++ [s.arena.length])) : Multiset ℕ) +
            ((l : List ℕ) : Multiset ℕ)
          = (idsOf s.catData : Multiset ℕ) +
              ((l ++ [s.arena.length] : List ℕ) : Multiset ℕ) := idsOf_setCat hl _
        _ = ((idsOf s.catData : Multiset ℕ) + ({s.arena.length} : Multiset ℕ)) +
              ((l : List ℕ) : Multiset ℕ) := by
            rw [coe_append_singleton]; abel
    exact add_right_cancel h1
  refine ⟨?_, ?_, ?_, ?_, ?_, ?_⟩
  · intro m hm
    rw [hFlat] at hm
    rw [hArena, List.length_append]
    rcases List.mem_append.1 hm with hm' | hm'
    · have := hb m hm'
      omega
    · rw [List.mem_singleton.1 hm']
      simp
  · rw [hCd, keyList_setCat]
    exact hkeys
  · rw [hFlat]
    have : (s.flat ++ [s.arena.length]).Nodup := by
      rw [List.nodup_append]
      exact ⟨hfnd, by simp, by simpa [List.Disjoint] using
        fun a ha (hsing : a = s.arena.length) => hlen_not_flat (hsing ▸ ha)⟩
    exact this
  · rw [hCd, ← Multiset.coe_nodup, hms]
    exact ms_nodup_insert ((Multiset.coe_nodup).2 hind)
      (fun hmem => hlen_not_ids ((Multiset.mem_coe).1 hmem))
  · rw [hFlat, hCd, ← Multiset.coe_eq_coe, hms, coe_append_singleton]
    rw [← Multiset.coe_eq_coe] at hperm
    rw [hperm]
  · intro p hp m hm
    rw [hCd] at hp
    rw [hArena]
    rcases mem_setCat hp with hp' | hp'
    · have hmlen : m < s.arena.length :=
        hb m (hperm.mem_iff.2 (mem_idsOf_of_mem hp' hm))
      rw [nthTxn_append_left _ _ _ hmlen]
      exact hpk p hp' m hm
    · subst hp'
      rcases List.mem_append.1 hm with hm' | hm'
      · have hmlen : m < s.arena.length :=
          hb m (hperm.mem_iff.2 (mem_idsOf_of_mem (lookupCat_mem hl) hm'))
        rw [nthTxn_append_left _ _ _ hmlen]
        exact hpk _ (lookupCat_mem hl) m hm'
      · rw [List.mem_singleton.1 hm', nthTxn_append_self]
        rfl

theorem delete_foldl_none (ts : List ℕ) :
    ts.foldl (fun st i => st.bind (fun s2 => deleteSelOne s2 i)) none = none := by
  induction ts with
  | nil => rfl
  | cons t ts ih =>
    rw [List.foldl_cons]
    exact ih

theorem noVal_iff {arena : List Txn} {R : List ℕ} {j : ℕ} :
    noVal arena R j = true ↔ ∀ r ∈ R, ¬ nthTxn arena j = nthTxn arena r := by
  simp [noVal, List.any_eq_true]

theorem countV_erase {arena : List Txn} {ids l' : List ℕ} {v : Txn}
    (h : eraseFirstVal arena ids v = some l') (t : Txn) :
    countV arena t ids = countV arena t l' + (if v = t then 1 else 0) := by
  obtain ⟨l₁, j, l₂, hdec, hval, hjv, _⟩ := eraseFirstVal_some h
  subst hdec
  subst hval
  simp only [countV, List.countP_append, List.countP_cons, hjv, decide_eq_true_eq]
  omega

theorem countV_append_one (arena : List Txn) (t : Txn) (l : List ℕ) (m : ℕ) :
    countV arena t (l ++ [m]) =
      countV arena t l + (if nthTxn arena m = t then 1 else 0) := by
  simp only [countV, List.countP_append, List.countP_cons, List.countP_nil,
    decide_eq_true_eq]
  omega

/-- The bulk-delete loop preserves consistency.  The running hypotheses
tolerate the mid-loop drift inside a clone class (the value-based
removals may take different identifiers out of the flat list and out of
the sublist): identifier-level agreement is only required for the value
classes with no remaining deletion target, while value-level counts
always agree, and every remaining target's value class is scheduled for
complete removal. -/
theorem delFold_preserves :
    ∀ (R : List ℕ) (s s' : LState),
      (∀ i ∈ s.flat, i < s.arena.length) →
      (keyList s.catData).Nodup →
      s.flat.Nodup →
      (idsOf s.catData).Nodup →
      (∀ p ∈ s.catData, ∀ i ∈ p.2, (nthTxn s.arena i).category = p.1) →
      (∀ t : Txn, countV s.arena t s.flat = countV s.arena t (idsOf s.catData)) →
      (∀ r ∈ R, countV s.arena (nthTxn s.arena r) s.flat =
        countV s.arena (nthTxn s.arena r) R) →
      ((s.flat.filter (noVal s.arena R) : List ℕ) : Multiset ℕ) =
        (((idsOf s.catData).filter (noVal s.arena R) : List ℕ) : Multiset ℕ) →
      R.foldl (fun st i => st.bind (fun s2 => deleteSelOne s2 i)) (some s) = some s' →
      LedgerInv s' := by
  intro R
  induction R with
  | nil =>
    intro s s' hb hkeys hfnd hind hpk _ _ hrec h
    rw [List.foldl_nil, Option.some_inj] at h
    subst h
    have hfe : s.flat.filter (noVal s.arena []) = s.flat :=
      List.filter_eq_self.2 (fun a _ => rfl)
    have hie : (idsOf s.catData).filter (noVal s.arena []) = idsOf s.catData :=
      List.filter_eq_self.2 (fun a _ => rfl)
    rw [hfe, hie] at hrec
    exact ⟨hb, hkeys, hfnd, hind, Multiset.coe_eq_coe.1 hrec, hpk⟩
  | cons r R ih =>
    intro s s' hb hkeys hfnd hind hpk hvp hR hrec h
    have hvr := hR r (List.mem_cons_self _ _)
    have hcnt_cons : countV s.arena (nthTxn s.arena r) (r :: R) =
        countV s.arena (nthTxn s.arena r) R + 1 := by
      simp [countV, List.countP_cons]
    have hflat_pos : 0 < countV s.arena (nthTxn s.arena r) s.flat := by
      rw [hvr, hcnt_cons]
      omega
    have hids_pos : 0 < countV s.arena (nthTxn s.arena r) (idsOf s.catData) := by
      rw [← hvp]
      exact hflat_pos
    obtain ⟨m0, hm0mem, hm0v⟩ : ∃ m ∈ idsOf s.catData,
        nthTxn s.arena m = nthTxn s.arena r := by
      obtain ⟨m, hm, hmp⟩ := List.countP_pos_iff.1 hids_pos
      exact ⟨m, hm, by simpa using hmp⟩
    obtain ⟨p, hp, hm0p⟩ := mem_idsOf_elim hm0mem
    have hpcat : (nthTxn s.arena r).category = p.1 := by
      rw [← hm0v]
      exact hpk p hp m0 hm0p
    have hlk : lookupCat s.catData (nthTxn s.arena r).category = some p.2 := by
      rw [hpcat]
      exact lookupCat_of_mem hkeys p hp
    have hmemF : memVal s.arena s.flat (nthTxn s.arena r) = true := by
      obtain ⟨j, hj, hjp⟩ := List.countP_pos_iff.1 hflat_pos
      exact memVal_iff.2 ⟨j, hj, by simpa using hjp⟩
    have hmemL : memVal s.arena p.2 (nthTxn s.arena r) = true :=
      memVal_iff.2 ⟨m0, hm0p, hm0v⟩
    obtain ⟨flat1, herasef⟩ : ∃ x,
        eraseFirstVal s.arena s.flat (nthTxn s.arena r) = some x := by
      cases he : eraseFirstVal s.arena s.flat (nthTxn s.arena r) with
      | none =>
        rw [eraseFirstVal_eq_none, hmemF] at he
        exact absurd he (by simp)
      | some x => exact ⟨x, rfl⟩
    obtain ⟨l1, herasel⟩ : ∃ x,
        eraseFirstVal s.arena p.2 (nthTxn s.arena r) = some x := by
      cases he : eraseFirstVal s.arena p.2 (nthTxn s.arena r) with
      | none =>
        rw [eraseFirstVal_eq_none, hmemL] at he
        exact absurd he (by simp)
      | some x => exact ⟨x, rfl⟩
    have hstep : deleteSelOne s r = some
        { s with
          flat := flat1
          catData := setCat s.catData (nthTxn s.arena r).category l1 } := by
      simp only [deleteSelOne, hlk]
      rw [if_pos hmemF, if_pos hmemL, herasef, herasel, Option.getD_some,
        Option.getD_some]
    simp only [List.foldl_cons, Option.some_bind] at h
    rw [hstep] at h
    obtain ⟨f₁, jf, f₂, hfdec, hfval, hjfv, _⟩ := eraseFirstVal_some herasef
    obtain ⟨g₁, jm, g₂, hgdec, hgval, hjmv, _⟩ := eraseFirstVal_some herasel
    have hmsF : ((s.flat : List ℕ) : Multiset ℕ) =
        ((flat1 : List ℕ) : Multiset ℕ) + ({jf} : Multiset ℕ) := by
      rw [hfdec, hfval]
      exact coe_erase_decomp f₁ f₂ jf
    have hmsI : (idsOf (setCat s.catData (nthTxn s.arena r).category l1) :
        Multiset ℕ) + ({jm} : Multiset ℕ) = (idsOf s.catData : Multiset ℕ) := by
      have h1 : ((idsOf (setCat s.catData (nthTxn s.arena r).category l1) :
          Multiset ℕ) + ({jm} : Multiset ℕ)) + ((l1 : List ℕ) : Multiset ℕ) =
          (idsOf s.catData : Multiset ℕ) + ((l1 : List ℕ) : Multiset ℕ) := by
        calc ((idsOf (setCat s.catData (nthTxn s.arena r).category l1) :
            Multiset ℕ) + ({jm} : Multiset ℕ)) + ((l1 : List ℕ) : Multiset ℕ)
            = (idsOf (setCat s.catData (nthTxn s.arena r).category l1) :
                Multiset ℕ) + ((p.2 : List ℕ) : Multiset ℕ) := by
              rw [hgdec, hgval, coe_erase_decomp]
              abel
          _ = (idsOf s.catData : Multiset ℕ) + ((l1 : List ℕ) : Multiset ℕ) :=
              idsOf_setCat hlk l1
      exact add_right_cancel h1
    have hpermI : (idsOf (setCat s.catData (nthTxn s.arena r).category l1) ++
        [jm]).Perm (idsOf s.catData) :=
      Multiset.coe_eq_coe.1 (by rw [coe_append_singleton]; exact hmsI)
    have hsubF : ∀ x ∈ flat1, x ∈ s.flat := by
      intro x hx
      rw [hfval] at hx
      rw [hfdec]
      rcases List.mem_append.1 hx with h1 | h1
      · exact List.mem_append.2 (Or.inl h1)
      · exact List.mem_append.2 (Or.inr (List.mem_cons_of_mem _ h1))
    have hb1 : ∀ i ∈ flat1, i < s.arena.length := fun i hi => hb i (hsubF i hi)
    have hkeys1 :
        (keyList (setCat s.catData (nthTxn s.arena r).category l1)).Nodup := by
      rw [keyList_setCat]
      exact hkeys
    have hfnd1 : flat1.Nodup :=
      Multiset.coe_nodup.1 (ms_nodup_erase hmsF.symm (Multiset.coe_nodup.2 hfnd)).1
    have hind1 : (idsOf (setCat s.catData (nthTxn s.arena r).category l1)).Nodup :=
      Multiset.coe_nodup.1 (ms_nodup_erase hmsI (Multiset.coe_nodup.2 hind)).1
    have hpk1 : ∀ q ∈ setCat s.catData (nthTxn s.arena r).category l1,
        ∀ i ∈ q.2, (nthTxn s.arena i).category = q.1 := by
      intro q hq i hi
      rcases mem_setCat hq with hq' | hq'
      · exact hpk q hq' i hi
      · subst hq'
        have hil : i ∈ p.2 := by
          rw [hgdec]
          have hi' : i ∈ g₁ ++ g₂ := by rw [← hgval]; exact hi
          rcases List.mem_append.1 hi' with h1 | h1
          · exact List.mem_append.2 (Or.inl h1)
          · exact List.mem_append.2 (Or.inr (List.mem_cons_of_mem _ h1))
        show (nthTxn s.arena i).category = (nthTxn s.arena r).category
        rw [hpk p hp i hil, hpcat]
    have hvp1 : ∀ t : Txn, countV s.arena t flat1 =
        countV s.arena t
          (idsOf (setCat s.catData (nthTxn s.arena r).category l1)) := by
      intro t
      have h1 := countV_erase herasef t
      have h2 : countV s.arena t
          (idsOf (setCat s.catData (nthTxn s.arena r).category l1) ++ [jm]) =
          countV s.arena t (idsOf s.catData) := hpermI.countP_eq _
      rw [countV_append_one, hjmv] at h2
      have h3 := hvp t
      omega
    have hR1 : ∀ r' ∈ R, countV s.arena (nthTxn s.arena r') flat1 =
        countV s.arena (nthTxn s.arena r') R := by
      intro r' hr'
      have h1 := countV_erase herasef (nthTxn s.arena r')
      have h2 := hR r' (List.mem_cons_of_mem _ hr')
      have h3 : countV s.arena (nthTxn s.arena r') (r :: R) =
          countV s.arena (nthTxn s.arena r') R +
            (if nthTxn s.arena r = nthTxn s.arena r' then 1 else 0) := by
        simp only [countV, List.countP_cons, decide_eq_true_eq]
      omega
    have hcountF : ∀ x : ℕ, s.flat.count x =
        flat1.count x + (if x = jf then 1 else 0) := by
      intro x
      have h5 := congrArg (Multiset.count x) hmsF
      simp only [Multiset.count_add, Multiset.count_singleton,
        Multiset.coe_count] at h5
      omega
    have hcountI : ∀ x : ℕ, (idsOf s.catData).count x =
        (idsOf (setCat s.catData (nthTxn s.arena r).category l1)).count x +
          (if x = jm then 1 else 0) := by
      intro x
      have h5 := congrArg (Multiset.count x) hmsI
      simp only [Multiset.count_add, Multiset.count_singleton,
        Multiset.coe_count] at h5
      omega
    have hrec1 : ((flat1.filter (noVal s.arena R) : List ℕ) : Multiset ℕ) =
        (((idsOf (setCat s.catData (nthTxn s.arena r).category l1)).filter
          (noVal s.arena R) : List ℕ) : Multiset ℕ) := by
      rw [Multiset.coe_eq_coe, List.perm_iff_count]
      intro x
      by_cases hx : noVal s.arena R x = true
      · rw [List.count_filter hx, List.count_filter hx]
        have hxall := noVal_iff.1 hx
        by_cases hxv : nthTxn s.arena x = nthTxn s.arena r
        · have hcR0 : countV s.arena (nthTxn s.arena r) R = 0 := by
            rw [countV, List.countP_eq_zero]
            intro a ha
            simp only [decide_eq_true_eq]
            intro hav
            exact hxall a ha (by rw [hxv, hav])
          have h1 := countV_erase herasef (nthTxn s.arena r)
          rw [if_pos rfl] at h1
          have hcF0 : countV s.arena (nthTxn s.arena r) flat1 = 0 := by
            omega
          have h2 : countV s.arena (nthTxn s.arena r)
              (idsOf (setCat s.catData (nthTxn s.arena r).category l1) ++ [jm]) =
              countV s.arena (nthTxn s.arena r) (idsOf s.catData) :=
            hpermI.countP_eq _
          rw [countV_append_one, hjmv, if_pos rfl] at h2
          have h3 := hvp (nthTxn s.arena r)
          have hcI0 : countV s.arena (nthTxn s.arena r)
              (idsOf (setCat s.catData (nthTxn s.arena r).category l1)) = 0 := by
            omega
          have hxf : x ∉ flat1 := by
            intro hmem
            have hpos : 0 < countV s.arena (nthTxn s.arena r) flat1 :=
              List.countP_pos_iff.2 ⟨x, hmem, by simp [hxv]⟩
            omega
          have hxi : x ∉ idsOf (setCat s.catData (nthTxn s.arena r).category l1) := by
            intro hmem
            have hpos : 0 < countV s.arena (nthTxn s.arena r)
                (idsOf (setCat s.catData (nthTxn s.arena r).category l1)) :=
              List.countP_pos_iff.2 ⟨x, hmem, by simp [hxv]⟩
            omega
          rw [List.count_eq_zero.2 hxf, List.count_eq_zero.2 hxi]
        · have hxold : noVal s.arena (r :: R) x = true := by
            rw [noVal_iff]
            intro r' hr'
            rcases List.mem_cons.1 hr' with h1 | h1
            · rw [h1]
              exact hxv
            · exact hxall r' h1
          have h6 := congrArg (Multiset.count x) hrec
          simp only [Multiset.coe_count] at h6
          rw [List.count_filter hxold, List.count_filter hxold] at h6
          have hxjf : x ≠ jf := fun he => hxv (by rw [he, hjfv])
          have hxjm : x ≠ jm := fun he => hxv (by rw [he, hjmv])
          have hf := hcountF x
          have hi2 := hcountI x
          rw [if_neg hxjf] at hf
          rw [if_neg hxjm] at hi2
          omega
      · have h1 : x ∉ flat1.filter (noVal s.arena R) := fun hmem =>
          hx (List.mem_filter.1 hmem).2
        have h2 : x ∉ (idsOf (setCat s.catData
            (nthTxn s.arena r).category l1)).filter (noVal s.arena R) := fun hmem =>
          hx (List.mem_filter.1 hmem).2
        rw [List.count_eq_zero.2 h1, List.count_eq_zero.2 h2]
    exact ih
      { s with
        flat := flat1
        catData := setCat s.catData (nthTxn s.arena r).category l1 } s'
      hb1 hkeys1 hfnd1 hind1 hpk1 hvp1 hR1 hrec1 h

/-- `delete_selected_transactions` driven by the id-based selection
preserves consistency: the selection is closed under transaction-id
equality, hence under object-value equality, so every value class of
live clones is either untouched or removed completely. -/
theorem delete_selected_preserves (s : LState)
    (sel : List (String × String × ℚ × String)) (s' : LState)
    (hinv : LedgerInv s)
    (h : delete_selected_transactions s (get_selected_transactions s sel) =
      some s') : LedgerInv s' := by
  obtain ⟨hb, hkeys, hfnd, hind, hperm, hpk⟩ := hinv
  rw [delete_selected_transactions] at h
  refine delFold_preserves (get_selected_transactions s sel) s s' hb hkeys hfnd hind
    hpk (fun t => hperm.countP_eq _) ?_ ?_ h
  · intro r hr
    rw [get_selected_transactions] at hr
    obtain ⟨hrf, hrP⟩ := List.mem_filter.1 hr
    have hcf : countV s.arena (nthTxn s.arena r) (get_selected_transactions s sel) =
        List.countP (fun j => decide (nthTxn s.arena j = nthTxn s.arena r) &&
          sel.any (fun i => i = get_transaction_id (nthTxn s.arena j))) s.flat := by
      rw [get_selected_transactions, countV, List.countP_filter]
    rw [hcf, countV]
    apply List.countP_congr
    intro a ha
    simp only [decide_eq_true_eq, Bool.and_eq_true]
    constructor
    · intro hav
      refine ⟨by simpa using hav, ?_⟩
      rw [hav]
      simpa using hrP
    · intro hand
      simpa using hand.1
  · rw [Multiset.coe_eq_coe, List.perm_iff_count]
    intro x
    by_cases hx : noVal s.arena (get_selected_transactions s sel) x = true
    · rw [List.count_filter hx, List.count_filter hx]
      exact hperm.count_eq x
    · have h1 : x ∉ s.flat.filter (noVal s.arena (get_selected_transactions s sel)) :=
        fun hmem => hx (List.mem_filter.1 hmem).2
      have h2 : x ∉ (idsOf s.catData).filter
          (noVal s.arena (get_selected_transactions s sel)) :=
        fun hmem => hx (List.mem_filter.1 hmem).2
      rw [List.count_eq_zero.2 h1, List.count_eq_zero.2 h2]

theorem inv_implies_consistent (s : LState) (hinv : LedgerInv s) :
    IndexConsistent s := by
  obtain ⟨hb, hkeys, hfnd, hind, hperm, hpk⟩ := hinv
  constructor
  · intro i hi
    obtain ⟨p, hp, hip⟩ := mem_idsOf_elim (hperm.mem_iff.1 hi)
    refine ⟨p, hp, ?_, (hpk p hp i hip).symm, ?_⟩
    · rw [inSub, List.any_eq_true]
      exact ⟨i, hip, by simp⟩
    · intro q hq hqin
      rw [inSub, List.any_eq_true] at hqin
      obtain ⟨k, hkq, hkv⟩ := hqin
      have hkv' : nthTxn s.arena k = nthTxn s.arena i := by simpa using hkv
      have hq1 : q.1 = p.1 := by
        rw [← hpk q hq k hkq, hkv', hpk p hp i hip]
      exact entry_unique hkeys q hq p hp hq1
  · intro p hp j hjp
    exact memVal_iff.2 ⟨j, hperm.mem_iff.2 (mem_idsOf_of_mem hp hjp), rfl⟩

/-- **C5** — after any sequence of edit, bulk-delete and duplicate
operations that completes without raising, starting from a consistent
ledger, the index invariant holds: every transaction of the flat list
lies in exactly one category sublist, that sublist's key equals the
transaction's category field, and every sublist member is in the flat
list.  Bulk-delete targets are produced by the id-based selection
(`get_selected_transactions`), under which value-identical clones are
always co-selected and co-deleted, and a duplicate's category is one of
the dialog combo box's items, i.e. an index key (`SafeSeq`). -/
theorem ledger_invariant_preserved :
    ∀ (ops : List Op) (s s' : LState), LedgerInv s → SafeSeq s ops →
      applySeq s ops = some s' → LedgerInv s' ∧ IndexConsistent s' := by
  intro ops
  induction ops with
  | nil =>
    intro s s' hinv _ h
    rw [applySeq, Option.some_inj] at h
    subst h
    exact ⟨hinv, inv_implies_consistent s hinv⟩
  | cons op rest ih =>
    intro s s' hinv hsafe h
    rw [SafeSeq] at hsafe
    obtain ⟨hop, hrest⟩ := hsafe
    rw [applySeq] at h
    cases hap : applyOp s op with
    | none =>
      rw [hap] at h
      exact absurd h (by simp)
    | some s1 =>
      rw [hap, Option.some_bind] at h
      simp only [hap] at hrest
      have hinv1 : LedgerInv s1 := by
        cases op with
        | editT i nm dt amt cat =>
          exact edit_preserves s i nm dt amt cat s1 hinv hap
        | delSel sel =>
          exact delete_selected_preserves s sel s1 hinv hap
        | dup i nm dt amt cat =>
          have hds : duplicateOne s i nm dt amt cat = s1 := Option.some_inj.1 hap
          exact hds ▸ dup_preserves s i nm dt amt cat hinv hop
      exact ih s1 s' hinv1 hrest h

/-- **C5 witness** — the sequence `c5WitOps` (duplicate twice with
identical dialog values producing a clone pair, edit the original, then
bulk-delete with the clones' shared id selected) run from the
consistent `c5WitState` completes and lands on a ledger satisfying both
the internal and the observable invariant. -/
theorem ledger_invariant_preserved_witness :
    LedgerInv c5WitFinal ∧ IndexConsistent c5WitFinal :=
  ledger_invariant_preserved c5WitOps c5WitState c5WitFinal (by decide)
    (by decide) (by decide)

end FeeTracker
